import Mathlib

/-!
# Verification of the aptify repository-assembly pipeline

A shallow embedding of the core of `aptify` (main.go, internal/deb,
internal/sha256sum) together with proofs about the embedded definitions.

Modelling conventions:
* Go byte strings (`string`, `[]byte`) are Lean `String`s; the concrete
  inputs exercised here are ASCII, where Go's byte-wise operations agree
  with Lean's character-wise operations.
* Filesystem paths are lists of path components (`filepath.Join` is list
  append); the filesystem is an association list from paths to contents,
  where `os.Create` replaces an existing entry in place.
* External collaborators (SHA-256, deb822 marshalling, compression,
  OpenPGP signing, tar/ar decoding) are oracle functions bundled in a
  structure; the pipeline is a pure function of the oracles, the
  configuration, the starting filesystem and the clock.
* Go `panic` (out-of-range slicing) and fatal errors are modelled by
  `Option`/`Except` results.
-/

namespace Aptify

/-- Byte strings (Go `string` / `[]byte`). -/
abbrev Bytes := String

/-- A filesystem path, as its list of components; `filepath.Join` is `++`. -/
abbrev FsPath := List String

/-- The filesystem: an association list of (path, file contents). -/
abbrev FS := List (FsPath × Bytes)

/-- Reading a file: first entry with the given path (paths are unique keys). -/
def fsLookup (fs : FS) (p : FsPath) : Option Bytes :=
  match fs with
  | [] => none
  | (q, c) :: rest => if q = p then some c else fsLookup rest p

/-- `os.Create` + write: truncate an existing file in place, else append a new one. -/
def fsWrite (fs : FS) (p : FsPath) (b : Bytes) : FS :=
  match fs with
  | [] => [(p, b)]
  | (q, c) :: rest => if q = p then (p, b) :: rest else (q, c) :: fsWrite rest p b

/-- Association-list lookup keyed by strings (a Go `map[string]T` read). -/
def lookupA {α : Type} (m : List (String × α)) (k : String) : Option α :=
  match m with
  | [] => none
  | (q, v) :: rest => if q = k then some v else lookupA rest k

/-- Association-list update (a Go `map[string]T` write through a default). -/
def updateA {α : Type} (m : List (String × α)) (k : String) (f : Option α → α) :
    List (String × α) :=
  match m with
  | [] => [(k, f none)]
  | (q, v) :: rest => if q = k then (k, f (some v)) :: rest else (q, v) :: updateA rest k f

/-- `strings.TrimSpace` on a character list. -/
def trimChars (cs : List Char) : List Char :=
  ((cs.dropWhile Char.isWhitespace).reverse.dropWhile Char.isWhitespace).reverse

/-- A package's control stanza plus the fields filled in by the build
(`github.com/dpeckett/deb822/types.Package`, restricted to the fields the
pipeline reads or writes). `Filename` is kept as a component list. -/
structure Package where
  Name : String
  Version : String
  Architecture : String
  Source : String
  Section : String
  Filename : FsPath
  Size : Nat
  SHA256 : Bytes
deriving DecidableEq, Repr

/-- The effective source name of `poolPathForPackage` after trimming and
lopping off a parenthesised version annotation, as a function of the
`Source` and `Name` fields: Go's
`source := strings.TrimSpace(pkg.Source)`; `if pkg.Source == "" { source =
strings.TrimSpace(pkg.Name) }`; `if strings.Contains(source, "(") { source
= source[:strings.Index(source, "(")] }`. -/
def processedSourceSN (src nm : String) : List Char :=
  let source := if src = "" then trimChars nm.data else trimChars src.data
  if source.any (fun c => c = '(') then source.takeWhile (fun c => c ≠ '(') else source

/-- The effective source name of `poolPathForPackage` for a package. -/
def processedSource (pkg : Package) : List Char :=
  processedSourceSN pkg.Source pkg.Name

/-- The tail of `poolPathForPackage` from main.go, after the source name has
been computed.  Go's `source[:1]` panics when the processed source is empty,
and `source[:4]` panics when the source starts with `lib` but is shorter
than four bytes; both panics are modelled as `none`. -/
def poolPathCore (componentName : String) (pkg : Package) (source : List Char) : Option FsPath :=
  if source.length < 1 then none
  else if source.take 3 = ['l', 'i', 'b'] ∧ source.length < 4 then none
  else
    let pfx := if source.take 3 = ['l', 'i', 'b'] then source.take 4 else source.take 1
    some ["pool", componentName, String.mk pfx, String.mk source,
      pkg.Name ++ "_" ++ pkg.Version ++ "_" ++ pkg.Architecture ++ ".deb"]

/-- `poolPathForPackage` from main.go (the returned `filepath.Join` is kept
as the list of its components). -/
def poolPathForPackage (componentName : String) (pkg : Package) : Option FsPath :=
  poolPathCore componentName pkg (processedSource pkg)

/-- Rendering a component-list path as the string `filepath.Join` produces
(for non-empty, slash-free components). -/
def renderPath : FsPath → String
  | [] => ""
  | [x] => x
  | x :: xs => x ++ "/" ++ renderPath xs

/-- Modelled from the spec: the pool source name, `Source` defaulting to
`Name` when `Source` is absent, with any trailing `(version)` annotation
stripped. -/
def specSource (pkg : Package) : String :=
  let s := if pkg.Source = "" then pkg.Name else pkg.Source
  if s.data.any (fun c => c = '(') then String.mk (s.data.takeWhile (fun c => c ≠ '(')) else s

/-- Modelled from the spec: the pool directory shard, the source's first
letter, except that a source starting with `lib` uses its first four
characters. -/
def specShard (source : String) : String :=
  if source.data.take 3 = ['l', 'i', 'b'] then String.mk (source.data.take 4)
  else String.mk (source.data.take 1)

end Aptify

namespace Aptify

theorem strEqIffData (x y : String) : x = y ↔ x.data = y.data := by
  cases x; cases y
  exact ⟨fun hh => by injection hh, fun hh => congrArg String.mk hh⟩

theorem renderPath_five (a b c d e : String) :
    renderPath [a, b, c, d, e] = a ++ "/" ++ b ++ "/" ++ c ++ "/" ++ d ++ "/" ++ e := by
  rw [strEqIffData]
  simp [renderPath, String.data_append, List.append_assoc]

/-- For control fields that carry no surrounding whitespace, the source
name computed by `poolPathForPackage` is the one the spec describes. -/
theorem processedSource_eq_spec (pkg : Package)
    (hs : trimChars pkg.Source.data = pkg.Source.data)
    (hn : trimChars pkg.Name.data = pkg.Name.data) :
    processedSource pkg = (specSource pkg).data := by
  unfold processedSource processedSourceSN specSource
  by_cases h : pkg.Source = "" <;> simp only [h, if_true, if_false, hs, hn] <;> split <;> rfl

/-- C3: for every package the assigned pool-relative filename equals
`pool/<component>/<shard>/<source>/<name>_<version>_<arch>.deb`, where
`<source>` is the control stanza's `Source` field — defaulting to `Name`
when `Source` is absent, with any trailing `(version)` annotation
stripped — and `<shard>` is the first letter of `<source>`, except that a
source starting with `lib` uses its first four characters; in particular
source `libfoo`, version `1.2`, component `main`, architecture `amd64`
yields `pool/main/libf/libfoo/libfoo_1.2_amd64.deb`, and source `bar`,
version `1.0` yields `pool/main/b/bar/bar_1.0_amd64.deb`.  (The general
statement assumes the fields carry no surrounding whitespace — deb822
field values never do — and that the derivation does not hit the Go
panics established by C10.) -/
theorem c3_pool_path_formula :
    (∀ (comp : String) (pkg : Package),
      trimChars pkg.Source.data = pkg.Source.data →
      trimChars pkg.Name.data = pkg.Name.data →
      specSource pkg ≠ "" →
      ((specSource pkg).data.take 3 = ['l', 'i', 'b'] → 4 ≤ (specSource pkg).data.length) →
      (poolPathForPackage comp pkg).map renderPath =
        some ("pool/" ++ comp ++ "/" ++ specShard (specSource pkg) ++ "/" ++ specSource pkg
          ++ "/" ++ pkg.Name ++ "_" ++ pkg.Version ++ "_" ++ pkg.Architecture ++ ".deb")) ∧
    (poolPathForPackage "main"
        { Name := "libfoo", Version := "1.2", Architecture := "amd64", Source := "",
          Section := "", Filename := [], Size := 0, SHA256 := "" }).map renderPath =
      some "pool/main/libf/libfoo/libfoo_1.2_amd64.deb" ∧
    (poolPathForPackage "main"
        { Name := "bar", Version := "1.0", Architecture := "amd64", Source := "",
          Section := "", Filename := [], Size := 0, SHA256 := "" }).map renderPath =
      some "pool/main/b/bar/bar_1.0_amd64.deb" := by
  refine ⟨?_, by decide, by decide⟩
  intro comp pkg hs hn hne hlib
  have hdata : processedSource pkg = (specSource pkg).data := processedSource_eq_spec pkg hs hn
  unfold poolPathForPackage specShard
  rw [hdata]
  have hl0 : ¬ (specSource pkg).data.length < 1 := by
    intro h
    apply hne
    have : (specSource pkg).data = [] := List.length_eq_zero.mp (Nat.lt_one_iff.mp h)
    cases hsp : specSource pkg
    simp_all
  unfold poolPathCore
  rw [if_neg hl0]
  by_cases hl : (specSource pkg).data.take 3 = ['l', 'i', 'b']
  · rw [if_neg (fun hc => Nat.not_lt.mpr (hlib hl) hc.2), if_pos hl, if_pos hl]
    simp only [Option.map_some']
    congr 1
    have hspd : String.mk (specSource pkg).data = specSource pkg := by
      cases specSource pkg; rfl
    rw [hspd, renderPath_five, strEqIffData]
    simp [String.data_append, List.append_assoc]
  · rw [if_neg (fun hc => hl hc.1), if_neg hl, if_neg hl]
    simp only [Option.map_some']
    congr 1
    have hspd : String.mk (specSource pkg).data = specSource pkg := by
      cases specSource pkg; rfl
    rw [hspd, renderPath_five, strEqIffData]
    simp [String.data_append, List.append_assoc]

/-- Witness for C3: the general formula applied to the `libfoo` example. -/
theorem c3_pool_path_formula_witness :
    (poolPathForPackage "universe"
        { Name := "libzstd1", Version := "1.5.5", Architecture := "arm64", Source := "libzstd",
          Section := "libs", Filename := [], Size := 0, SHA256 := "" }).map renderPath =
      some "pool/universe/libz/libzstd/libzstd1_1.5.5_arm64.deb" := by
  have h := c3_pool_path_formula.1 "universe"
    { Name := "libzstd1", Version := "1.5.5", Architecture := "arm64", Source := "libzstd",
      Section := "libs", Filename := [], Size := 0, SHA256 := "" }
    (by decide) (by decide) (by decide) (by decide)
  simpa using h

/-- C10: pool-path derivation is partial: a package whose effective source
name (`Source`, or `Name` when `Source` is empty) is the empty string, or
is exactly `lib`, makes `poolPathForPackage` hit a Go index-out-of-range
panic (modelled as `none`); and the derivation produces a path exactly when
the processed source name is non-empty and, when it starts with `lib`, at
least four characters long. -/
theorem c10_pool_path_partiality :
    (∀ (comp : String) (pkg : Package),
      ((if pkg.Source = "" then pkg.Name else pkg.Source) = "" ∨
        (if pkg.Source = "" then pkg.Name else pkg.Source) = "lib") →
      poolPathForPackage comp pkg = none) ∧
    (∀ (comp : String) (pkg : Package), (poolPathForPackage comp pkg).isSome ↔
      (processedSource pkg ≠ [] ∧
        ((processedSource pkg).take 3 = ['l', 'i', 'b'] → 4 ≤ (processedSource pkg).length))) := by
  have hiff : ∀ (comp : String) (pkg : Package), (poolPathForPackage comp pkg).isSome ↔
      (processedSource pkg ≠ [] ∧
        ((processedSource pkg).take 3 = ['l', 'i', 'b'] → 4 ≤ (processedSource pkg).length)) := by
    intro comp pkg
    unfold poolPathForPackage poolPathCore
    by_cases h1 : (processedSource pkg).length < 1
    · have : processedSource pkg = [] := List.length_eq_zero.mp (Nat.lt_one_iff.mp h1)
      simp [h1, this]
    · rw [if_neg h1]
      have hne : processedSource pkg ≠ [] := by
        intro h; exact h1 (by simp [h])
      by_cases h2 : (processedSource pkg).take 3 = ['l', 'i', 'b'] ∧ (processedSource pkg).length < 4
      · simp [h2, hne, h2.1, Nat.not_le.mpr h2.2]
      · rw [if_neg h2]
        simp only [Option.isSome_some, true_iff]
        refine ⟨hne, fun hl => ?_⟩
        by_contra hlt
        exact h2 ⟨hl, Nat.lt_of_not_le (fun hc => hlt hc)⟩
  refine ⟨?_, hiff⟩
  have libSN : ∀ nm : String, processedSourceSN "lib" nm = ['l', 'i', 'b'] := by
    intro nm
    unfold processedSourceSN
    rw [if_neg (show ("lib" : String) = "" → False by decide)]
    decide
  have finish0 : ∀ comp pkg, processedSource pkg = [] → poolPathForPackage comp pkg = none := by
    intro comp pkg hps
    by_contra hc
    exact ((hiff comp pkg).mp (Option.ne_none_iff_isSome.mp hc)).1 hps
  have finishLib : ∀ comp pkg, processedSource pkg = ['l', 'i', 'b'] →
      poolPathForPackage comp pkg = none := by
    intro comp pkg hps
    by_contra hc
    have h2 := (hiff comp pkg).mp (Option.ne_none_iff_isSome.mp hc)
    rw [hps] at h2
    exact absurd (h2.2 rfl) (by decide)
  rintro comp pkg (h | h)
  · by_cases hs : pkg.Source = ""
    · rw [hs, if_pos rfl] at h
      refine finish0 comp pkg ?_
      have h0 : processedSource pkg = processedSourceSN pkg.Source pkg.Name := rfl
      rw [hs, h] at h0
      rw [h0]
      decide
    · rw [if_neg hs] at h
      exact absurd h hs
  · by_cases hs : pkg.Source = ""
    · rw [hs, if_pos rfl] at h
      refine finishLib comp pkg ?_
      have h0 : processedSource pkg = processedSourceSN pkg.Source pkg.Name := rfl
      rw [hs, h] at h0
      rw [h0]
      decide
    · rw [if_neg hs] at h
      refine finishLib comp pkg ?_
      have h0 : processedSource pkg = processedSourceSN pkg.Source pkg.Name := rfl
      rw [h] at h0
      rw [h0, libSN]

/-- Witness for C10: a package whose `Source` is exactly `lib` panics. -/
theorem c10_pool_path_partiality_witness :
    poolPathForPackage "main"
      { Name := "lib-tools", Version := "1.0", Architecture := "amd64", Source := "lib",
        Section := "", Filename := [], Size := 0, SHA256 := "" } = none :=
  c10_pool_path_partiality.1 "main"
    { Name := "lib-tools", Version := "1.0", Architecture := "amd64", Source := "lib",
      Section := "", Filename := [], Size := 0, SHA256 := "" } (Or.inr (by decide))

end Aptify

namespace Aptify

/-! ## Debian package ordering (C4)

`buildRepository` sorts each architecture-filtered package list with
`sort.Slice(packages, func(i, j int) bool { return
packages[i].Compare(packages[j]) < 0 })`.  `types.Package.Compare` lives in
the external `deb822` library; the order is modelled from the spec: name,
then version under Debian (dpkg) version-ordering rules, then
architecture.  The order is realised by mapping each package to an integer
key sequence compared lexicographically, which makes totality and
transitivity structural. -/

/-- Lexicographic comparison of integer key sequences (`[] ≤` everything,
missing elements compare low). -/
def keyLe : List Int → List Int → Bool
  | [], _ => true
  | _ :: _, [] => false
  | a :: as, b :: bs => if a < b then true else if b < a then false else keyLe as bs

theorem keyLe_total : ∀ xs ys : List Int, keyLe xs ys = true ∨ keyLe ys xs = true
  | [], _ => Or.inl rfl
  | _ :: _, [] => Or.inr rfl
  | a :: as, b :: bs => by
    unfold keyLe
    rcases lt_trichotomy a b with h | h | h
    · left; simp [h]
    · subst h
      simp only [lt_irrefl, if_false]
      exact keyLe_total as bs
    · right; simp [h]

theorem keyLe_trans : ∀ xs ys zs : List Int,
    keyLe xs ys = true → keyLe ys zs = true → keyLe xs zs = true
  | [], _, _, _, _ => rfl
  | a :: as, [], _, h, _ => by simp [keyLe] at h
  | a :: as, b :: bs, [], _, h => by simp [keyLe] at h
  | a :: as, b :: bs, c :: cs, h1, h2 => by
    unfold keyLe at h1 h2 ⊢
    rcases lt_trichotomy a b with hab | hab | hab
    · rcases lt_trichotomy b c with hbc | hbc | hbc
      · simp [lt_trans hab hbc]
      · subst hbc; simp [hab]
      · simp [hab, not_lt.mpr (le_of_lt hab)] at h1 ⊢
        rcases lt_trichotomy a c with hac | hac | hac
        · simp [hac]
        · subst hac
          simp [hbc, not_lt.mpr (le_of_lt hbc)] at h2
        · exfalso
          simp [not_lt.mpr (le_of_lt hbc), hbc] at h2
    · subst hab
      rcases lt_trichotomy a c with hac | hac | hac
      · simp [hac]
      · subst hac
        simp only [lt_irrefl, if_false] at h1 h2 ⊢
        exact keyLe_trans as bs cs h1 h2
      · exfalso
        simp only [lt_irrefl, if_false] at h1
        rcases lt_trichotomy a c with h | h | h
        · exact absurd h (not_lt.mpr (le_of_lt hac))
        · exact absurd h.symm (ne_of_lt hac)
        · simp [h, not_lt.mpr (le_of_lt h)] at h2
    · exfalso
      simp [hab, not_lt.mpr (le_of_lt hab)] at h1

/-- Modelled from the spec: dpkg's character order for version comparison —
digits act as run separators (order 0, like end-of-string), letters sort by
code point, `~` sorts below everything, all other characters sort above
letters. -/
def charOrder (c : Char) : Int :=
  if c.isDigit then 0
  else if c.isAlpha then (c.toNat : Int)
  else if c = '~' then -1
  else (c.toNat : Int) + 256

/-- Numeric value of a digit run. -/
def digitsVal (ds : List Char) : Nat := ds.foldl (fun n c => 10 * n + (c.toNat - 48)) 0

/-- Modelled from the spec: the alternating (non-digit run, digit run)
blocks of dpkg's `verrevcmp` scan, flattened into an integer key — each
non-digit run as its character orders followed by a `0` terminator (the
order of a digit or of end-of-string), then the numeric value of the digit
run.  The fuel argument bounds the recursion depth; `verKey` supplies the
string length, which always suffices since every step consumes at least
one character. -/
def verKeyAux : Nat → List Char → List Int
  | _, [] => []
  | 0, _ => []
  | fuel + 1, c :: cs =>
    let nd := (c :: cs).takeWhile (fun x => ¬ x.isDigit)
    let r1 := (c :: cs).dropWhile (fun x => ¬ x.isDigit)
    let ds := r1.takeWhile (fun x => x.isDigit)
    let r2 := r1.dropWhile (fun x => x.isDigit)
    nd.map charOrder ++ [0, (digitsVal ds : Int)] ++ verKeyAux fuel r2

/-- Key of one version part (upstream version or Debian revision), with a
terminal empty block so that a shorter string that is a prefix of a longer
one compares through the end-of-string order. -/
def verKey (cs : List Char) : List Int := verKeyAux cs.length cs ++ [0, 0]

/-- Modelled from the spec: the numeric epoch before the first `:`
(0 when absent). -/
def epochOf (cs : List Char) : Nat :=
  if cs.any (fun c => c = ':') then digitsVal (cs.takeWhile (fun c => c ≠ ':')) else 0

/-- The version string with its epoch removed. -/
def afterEpoch (cs : List Char) : List Char :=
  if cs.any (fun c => c = ':') then (cs.dropWhile (fun c => c ≠ ':')).drop 1 else cs

/-- The upstream part: everything before the last `-` (the whole string
when there is no `-`). -/
def upstreamOf (cs : List Char) : List Char :=
  if cs.any (fun c => c = '-') then ((cs.reverse.dropWhile (fun c => c ≠ '-')).drop 1).reverse
  else cs

/-- The Debian revision: everything after the last `-` (empty when there is
no `-`). -/
def revisionOf (cs : List Char) : List Char :=
  if cs.any (fun c => c = '-') then (cs.reverse.takeWhile (fun c => c ≠ '-')).reverse
  else []

/-- Modelled from the spec: the Debian version-ordering key —
epoch, then upstream version, then revision, each under dpkg rules. -/
def debVersionKey (v : String) : List Int :=
  let cs := afterEpoch v.data
  (epochOf v.data : Int) :: (verKey (upstreamOf cs) ++ verKey (revisionOf cs))

/-- A string as an integer key (byte-wise comparison for the ASCII inputs
at hand). -/
def strKey (s : String) : List Int := s.data.map (fun c => (c.toNat : Int))

/-- Modelled from the spec: the total Debian package-comparison key — name,
then version under Debian version ordering, then architecture.  The `-1`
separator sorts a name that is a proper prefix of another before it, as
byte-wise string comparison does. -/
def pkgKey (p : Package) : List Int :=
  strKey p.Name ++ [-1] ++ debVersionKey p.Version ++ strKey p.Architecture

/-- The Debian package comparison order (`Compare(...) <= 0`). -/
def pkgLe (p q : Package) : Prop := keyLe (pkgKey p) (pkgKey q) = true

instance : DecidableRel pkgLe := fun _ _ => inferInstanceAs (Decidable (_ = true))

/-- The architecture filter + Debian-order sort that `buildRepository`
applies to a (release, component) bucket before writing its `Packages`
index (main.go lines 420-431). -/
def packagesForArch (bucket : List Package) (a : String) : List Package :=
  List.insertionSort pkgLe (bucket.filter (fun p => decide (p.Architecture = a)))

/-- A same-name, same-architecture package carrying only a version, for the
version-ordering example of C4. -/
def c4pkg (v : String) : Package :=
  { Name := "foo", Version := v, Architecture := "amd64", Source := "",
    Section := "", Filename := [], Size := 0, SHA256 := "" }

/-- C4: within every generated Packages index, stanzas appear sorted by the
total Debian package comparison order — name, then version under Debian
version-ordering rules, then architecture; in particular, packages sharing
a name and architecture with versions `1.0-1`, `1.0-2`, `1.1-1` and
`2:1.0-1` appear in exactly that order. -/
theorem c4_packages_index_sorted :
    (∀ (bucket : List Package) (a : String), List.Sorted pkgLe (packagesForArch bucket a)) ∧
    packagesForArch [c4pkg "2:1.0-1", c4pkg "1.0-2", c4pkg "1.0-1", c4pkg "1.1-1"] "amd64" =
      [c4pkg "1.0-1", c4pkg "1.0-2", c4pkg "1.1-1", c4pkg "2:1.0-1"] := by
  constructor
  · intro bucket a
    haveI : IsTotal Package pkgLe := ⟨fun x y => keyLe_total _ _⟩
    haveI : IsTrans Package pkgLe := ⟨fun x y z => keyLe_trans _ _ _⟩
    exact List.sorted_insertionSort pkgLe _
  · decide

end Aptify

namespace Aptify

/-! ## Package metadata extraction (C8)

`internal/deb/metadata.go`.  The `ar` container listing is the input;
decompression of the control archive (`uncompr`/`compressmagic`) and
decoding of its `control` file (`tarfs` + `deb822`) are external and enter
as oracle parameters. -/

/-- One member of the `.deb` `ar` archive: its name and raw bytes. -/
structure ArMember where
  name : String
  data : Bytes
deriving DecidableEq

/-- `debFS.Open(name)`: the first archive member with the given name. -/
def arOpen (ar : List ArMember) (nm : String) : Option Bytes :=
  (ar.find? (fun m => m.name = nm)).map (fun m => m.data)

/-- `ensureIsDebianPackage`: open the `debian-binary` member and demand its
content is verbatim the four bytes `"2.0\n"`. -/
def ensureIsDebianPackage (ar : List ArMember) : Except String Unit :=
  match arOpen ar "debian-binary" with
  | none => Except.error "failed to open debian-binary file"
  | some content =>
    if content = "2.0\n" then Except.ok ()
    else Except.error ("unsupported debian package version: " ++ content)

/-- `GetMetadata`: validate the format, locate the first member whose name
has prefix `control.tar`, decompress it and decode the `control` file
within into a `Package`. -/
def GetMetadata (decompress : Bytes → Except String Bytes)
    (parseControl : Bytes → Except String Package) (ar : List ArMember) :
    Except String Package :=
  match ensureIsDebianPackage ar with
  | Except.error e => Except.error e
  | Except.ok _ =>
    match ar.find? (fun m => m.name.startsWith "control.tar") with
    | none => Except.error "failed to find control archive in debian package"
    | some m =>
      match decompress m.data with
      | Except.error e => Except.error ("failed to decompress control archive: " ++ e)
      | Except.ok tarBytes =>
        match parseControl tarBytes with
        | Except.error e => Except.error ("failed to decode control file: " ++ e)
        | Except.ok pkg => Except.ok pkg

/-- C8: metadata extraction errors out whenever `debian-binary` is missing
or its content is not verbatim `"2.0\n"`, and whenever no member named with
prefix `control.tar` exists; and it returns a `Package` only when those
checks pass. -/
theorem c8_metadata_validation (decompress : Bytes → Except String Bytes)
    (parseControl : Bytes → Except String Package) (ar : List ArMember) :
    (arOpen ar "debian-binary" = none →
      ∃ e, GetMetadata decompress parseControl ar = Except.error e) ∧
    (∀ content, arOpen ar "debian-binary" = some content → content ≠ "2.0\n" →
      ∃ e, GetMetadata decompress parseControl ar = Except.error e) ∧
    ((∀ m ∈ ar, ¬ (m.name.startsWith "control.tar" = true)) →
      ∃ e, GetMetadata decompress parseControl ar = Except.error e) ∧
    (∀ pkg, GetMetadata decompress parseControl ar = Except.ok pkg →
      arOpen ar "debian-binary" = some "2.0\n" ∧
        ∃ m ∈ ar, m.name.startsWith "control.tar" = true) := by
  refine ⟨?_, ?_, ?_, ?_⟩
  · intro h
    refine ⟨"failed to open debian-binary file", ?_⟩
    unfold GetMetadata ensureIsDebianPackage
    rw [h]
  · intro content h hne
    refine ⟨"unsupported debian package version: " ++ content, ?_⟩
    unfold GetMetadata ensureIsDebianPackage
    rw [h]
    simp [hne]
  · intro h
    unfold GetMetadata
    match hv : ensureIsDebianPackage ar with
    | Except.error e => exact ⟨e, rfl⟩
    | Except.ok _ =>
      have hf : ar.find? (fun m => m.name.startsWith "control.tar") = none :=
        List.find?_eq_none.mpr (fun m hm => by simpa using h m hm)
      rw [hf]
      exact ⟨"failed to find control archive in debian package", rfl⟩
  · intro pkg h
    unfold GetMetadata at h
    match hv : ensureIsDebianPackage ar with
    | Except.error e => rw [hv] at h; exact absurd h (by simp)
    | Except.ok _ =>
      rw [hv] at h
      constructor
      · unfold ensureIsDebianPackage at hv
        match ho : arOpen ar "debian-binary" with
        | none => rw [ho] at hv; simp at hv
        | some content =>
          rw [ho] at hv
          by_cases hc : content = "2.0\n"
          · rw [hc]
          · simp [hc] at hv
      · match hf : ar.find? (fun m => m.name.startsWith "control.tar") with
        | none => rw [hf] at h; exact absurd h (by simp)
        | some m =>
          have hm := List.find?_some hf
          have hmem := List.mem_of_find?_eq_some hf
          exact ⟨m, hmem, hm⟩

/-- Witness for C8: an archive with no members at all is rejected. -/
theorem c8_metadata_validation_witness :
    ∃ e, GetMetadata (fun b => Except.ok b)
      (fun _ => Except.error "no control stanza") [] = Except.error e :=
  (c8_metadata_validation (fun b => Except.ok b)
    (fun _ => Except.error "no control stanza") []).1 rfl

end Aptify

namespace Aptify

/-! ## The build pipeline (`buildRepository`, main.go lines 329-479)

The drive through the configuration is modelled as a pure function of the
oracles, the configuration, the output directory, the starting filesystem
and the clock; `none` models a Go panic or a fatal `os.Stat` error.  The
external steps the build consumes (SHA-256, deb822, compression codecs,
OpenPGP) are the oracle fields. -/

structure ComponentConfig where
  name : String
  packages : List String
deriving DecidableEq

structure ReleaseConfig where
  name : String
  version : String
  origin : String
  label : String
  suite : String
  description : String
  components : List ComponentConfig
deriving DecidableEq

structure Config where
  releases : List ReleaseConfig
deriving DecidableEq

/-- One entry of the release manifest's SHA-256 list
(`deb822/types/filehash.FileHash`). -/
structure FileHash where
  Filename : FsPath
  Hash : Bytes
  Size : Nat
deriving DecidableEq

/-- `deb822/types.Release`, restricted to the fields the build writes. -/
structure Release where
  Origin : String
  Label : String
  Suite : String
  Version : String
  Codename : String
  Changelogs : String
  Date : Nat
  Architectures : List String
  Components : List String
  Description : String
  SHA256 : List FileHash
deriving DecidableEq

/-- The external collaborators, as oracle functions: `hash` is SHA-256,
`fileBytes` reads a source `.deb`, `meta` is the successful result of
`deb.GetMetadata` on a source path, `contentsOf` is
`deb.GetPackageContents` as a function of the pool file's bytes,
`marshalPackages` is `deb822.Marshal`, `xz`/`gz` the compression writers,
`encodeRelease` the signing deb822 encoder, `pubKey` the armored public
key. -/
structure Oracles where
  hash : Bytes → Bytes
  fileBytes : String → Bytes
  meta : String → Package
  contentsOf : Bytes → List String
  marshalPackages : List Package → Bytes
  xz : Bytes → Bytes
  gz : Bytes → Bytes
  encodeRelease : Release → Bytes
  pubKey : Bytes

/-- `deb.GetMetadata` followed by `pkg.SHA256 = sha256sum.File(pkgPath)`. -/
def metaPkg (O : Oracles) (path : String) : Package :=
  let pkg := O.meta path
  { pkg with SHA256 := O.hash (O.fileBytes path) }

/-- The mutable state of the package loop: the (release/component) buckets
(each entry remembers the source path it came from, a proof artefact the
Go code does not store), the per-(release/component) architecture sets,
`pkgPoolPaths`, a log of performed pool copies, and the filesystem. -/
structure PoolState where
  buckets : List (String × List (String × Package))
  archs : List (String × List String)
  poolMap : List (String × FsPath)
  copies : List (String × FsPath)
  fs : FS
deriving DecidableEq

def emptyPool (fs0 : FS) : PoolState :=
  { buckets := [], archs := [], poolMap := [], copies := [], fs := fs0 }

/-- `archsForReleaseComponent[rc][arch] = true`: insertion-ordered set
insert. -/
def archInsert (m : List (String × List String)) (k a : String) : List (String × List String) :=
  updateA m k (fun old =>
    match old with
    | none => [a]
    | some l => if a ∈ l then l else l ++ [a])

/-- `packagesForReleaseComponent[rc] = append(..., *pkg)`. -/
def bucketAdd (m : List (String × List (String × Package))) (k : String)
    (v : String × Package) : List (String × List (String × Package)) :=
  updateA m k (fun old =>
    match old with
    | none => [v]
    | some l => l ++ [v])

/-- One iteration of the package loop of `buildRepository` (lines 359-401):
extract metadata, hash the source file, record the architecture, copy into
the pool only on first sight of the source path (reusing the assigned pool
path afterwards), stat the pool file for `Size`, and append to the
(release, component) bucket. -/
def poolStep (O : Oracles) (repoDir : FsPath) (st : PoolState) :
    String × String × String → Option PoolState
  | (rel, comp, path) =>
    let rc := rel ++ "/" ++ comp
    let pkg1 := metaPkg O path
    let archs2 := archInsert st.archs rc pkg1.Architecture
    match lookupA st.poolMap path with
    | none =>
      match poolPathForPackage comp pkg1 with
      | none => none
      | some fp =>
        let fs2 := fsWrite st.fs (repoDir ++ fp) (O.fileBytes path)
        match fsLookup fs2 (repoDir ++ fp) with
        | none => none
        | some b =>
          some { buckets := bucketAdd st.buckets rc
                   (path, { pkg1 with Filename := fp, Size := b.length })
                 archs := archs2
                 poolMap := st.poolMap ++ [(path, fp)]
                 copies := st.copies ++ [(path, fp)]
                 fs := fs2 }
    | some fp =>
      match fsLookup st.fs (repoDir ++ fp) with
      | none => none
      | some b =>
        some { buckets := bucketAdd st.buckets rc
                 (path, { pkg1 with Filename := fp, Size := b.length })
               archs := archs2
               poolMap := st.poolMap
               copies := st.copies
               fs := st.fs }

/-- The (release, component, package-path) triples in the order the nested
loops of `buildRepository` visit them. -/
def refsOfConfig (conf : Config) : List (String × String × String) :=
  conf.releases.flatMap (fun r =>
    r.components.flatMap (fun c => c.packages.map (fun p => (r.name, c.name, p))))

/-- The whole pool-copy phase (lines 354-403). -/
def poolPhase (O : Oracles) (repoDir : FsPath) (conf : Config) (fs0 : FS) : Option PoolState :=
  (refsOfConfig conf).foldlM (poolStep O repoDir) (emptyPool fs0)

/-- The name a package contributes to Contents lines: `section/name` when a
section is set, else the bare name. -/
def contentsQualifiedName (pkg : Package) : String :=
  if pkg.Section = "" then pkg.Name else pkg.Section ++ "/" ++ pkg.Name

/-- The `contents` map build of `writeContentsIndice` (lines 526-541):
re-open every package's pool file, walk its installed paths, and append
the qualified name under each path key. -/
def collectContents (O : Oracles) (repoDir : FsPath) (fs : FS) :
    List Package → List (String × List String) → Option (List (String × List String))
  | [], m => some m
  | pkg :: rest, m =>
    match fsLookup fs (repoDir ++ pkg.Filename) with
    | none => none
    | some b =>
      let qn := contentsQualifiedName pkg
      collectContents O repoDir fs rest
        ((O.contentsOf b).foldl
          (fun acc p => updateA acc p (fun old =>
            match old with
            | none => [qn]
            | some l => l ++ [qn])) m)

/-- Byte-wise string order (`sort.Strings`). -/
def strLe (a b : String) : Prop := keyLe (strKey a) (strKey b) = true

instance : DecidableRel strLe := fun _ _ => inferInstanceAs (Decidable (_ = true))

/-- The sorted `<path> <comma-joined-names>` lines of a Contents index
(lines 543-557). -/
def contentsLines (m : List (String × List String)) : List String :=
  (List.insertionSort strLe (m.map (fun e => e.1))).map
    (fun p => p ++ " " ++ String.intercalate "," ((lookupA m p).getD []))

/-- `writeContentsIndice`: collect, sort, render one line per path, and
write the compressed `Contents-<arch>.gz`. -/
def writeContentsFS (O : Oracles) (repoDir componentDir : FsPath) (packages : List Package)
    (archName : String) (fs : FS) : Option FS :=
  match collectContents O repoDir fs packages [] with
  | none => none
  | some m =>
    some (fsWrite fs (componentDir ++ ["Contents-" ++ archName ++ ".gz"])
      (O.gz (String.join ((contentsLines m).map (fun l => l ++ "\n")))))

/-- `writePackagesIndice`: marshal once into a buffer, then write the plain
`Packages` and the compressed `Packages.xz` from that same buffer. -/
def writePackagesFS (O : Oracles) (archDir : FsPath) (packages : List Package) (fs : FS) : FS :=
  let bytes := O.marshalPackages packages
  fsWrite (fsWrite fs (archDir ++ ["Packages"]) bytes) (archDir ++ ["Packages.xz"]) (O.xz bytes)

/-- The packages of a (release, component) bucket, in insertion order. -/
def bucketPackages (st : PoolState) (rc : String) : List Package :=
  ((lookupA st.buckets rc).getD []).map (fun e => e.2)

/-- The per-release index loop (lines 407-441): for every component and
every observed architecture of that (release, component), write the
Packages and Contents indices. -/
def releaseIndexPhase (O : Oracles) (repoDir : FsPath) (st : PoolState)
    (relConf : ReleaseConfig) (fs : FS) : Option FS :=
  relConf.components.foldlM (fun fsc comp =>
    let rc := relConf.name ++ "/" ++ comp.name
    ((lookupA st.archs rc).getD []).foldlM (fun fsa a =>
      let componentDir := repoDir ++ ["dists", relConf.name, comp.name]
      writeContentsFS O repoDir componentDir
        (packagesForArch (bucketPackages st rc) a) a
        (writePackagesFS O (componentDir ++ ["binary-" ++ a])
          (packagesForArch (bucketPackages st rc) a) fsa)) fsc) fs

/-- Whether `p` denotes a regular file strictly below directory `dir`. -/
def underDir (dir p : FsPath) : Bool := decide (p.take dir.length = dir ∧ dir.length < p.length)

/-- `sha256sum.Directory`: one (relative path, digest, size) entry for
every file under `dir`.  (`filepath.WalkDir` visits files in lexical
order; the claims below are about the entry set, so the model keeps the
filesystem's own order.) -/
def directoryHashes (O : Oracles) (dir : FsPath) (fs : FS) : List FileHash :=
  fs.filterMap (fun e =>
    if underDir dir e.1 then
      some { Filename := e.1.drop dir.length, Hash := O.hash e.2, Size := e.2.length }
    else none)

/-- `writeReleaseFile` (lines 562-606) together with the architecture list
computed at lines 443-446: the architectures are read from
`archsForReleaseComponent` under the bare release name although that map
is keyed by `release/component` (see C5).  The manifest hash set is
computed from the filesystem as it stands, before `InRelease` is
created. -/
def writeReleaseFS (O : Oracles) (repoDir : FsPath) (st : PoolState)
    (relConf : ReleaseConfig) (now : Nat) (fs : FS) : Release × FS :=
  let releaseDir := repoDir ++ ["dists", relConf.name]
  let rel : Release :=
    { Origin := relConf.origin
      Label := relConf.label
      Suite := relConf.suite
      Version := relConf.version
      Codename := relConf.name
      Changelogs := "no"
      Date := now
      Architectures := (lookupA st.archs relConf.name).getD []
      Components := relConf.components.map (fun c => c.name)
      Description := relConf.description
      SHA256 := directoryHashes O releaseDir fs }
  (rel, fsWrite fs (releaseDir ++ ["InRelease"]) (O.encodeRelease rel))

/-- The observable outcome of a build: the final tree, the loop state, and
every release manifest written. -/
structure BuildResult where
  fs : FS
  buckets : List (String × List (String × Package))
  archs : List (String × List String)
  poolMap : List (String × FsPath)
  copies : List (String × FsPath)
  releases : List (String × Release)
deriving DecidableEq

/-- One iteration of the release loop (lines 406-456): the index phase for
the release, then its signed manifest. -/
def releaseStep (O : Oracles) (repoDir : FsPath) (st : PoolState) (now : Nat)
    (acc : FS × List (String × Release)) (relConf : ReleaseConfig) :
    Option (FS × List (String × Release)) :=
  match releaseIndexPhase O repoDir st relConf acc.1 with
  | none => none
  | some fs1 =>
    let rf := writeReleaseFS O repoDir st relConf now fs1
    some (rf.2, acc.2 ++ [(relConf.name, rf.1)])

/-- `buildRepository`, from a loaded key and parsed configuration onwards:
the pool phase, then per release the index phase followed by the signed
release manifest, finally the exported signing key at the repository
root. -/
def buildRepository (O : Oracles) (repoDir : FsPath) (conf : Config) (now : Nat) (fs0 : FS) :
    Option BuildResult :=
  match poolPhase O repoDir conf fs0 with
  | none => none
  | some st =>
    match conf.releases.foldlM (releaseStep O repoDir st now) (st.fs, []) with
    | none => none
    | some acc =>
      some { fs := fsWrite acc.1 (repoDir ++ ["signing_key.asc"]) O.pubKey
             buckets := st.buckets
             archs := st.archs
             poolMap := st.poolMap
             copies := st.copies
             releases := acc.2 }

end Aptify

namespace Aptify

/-! ## Basic facts about the filesystem and map models -/

theorem fsLookup_fsWrite_self (fs : FS) (p : FsPath) (b : Bytes) :
    fsLookup (fsWrite fs p b) p = some b := by
  induction fs with
  | nil => simp [fsWrite, fsLookup]
  | cons e rest ih =>
    by_cases h : e.1 = p
    · simp [fsWrite, fsLookup, h]
    · simpa [fsWrite, fsLookup, h] using ih

theorem fsLookup_fsWrite_other (fs : FS) (p q : FsPath) (b : Bytes) (h : q ≠ p) :
    fsLookup (fsWrite fs p b) q = fsLookup fs q := by
  induction fs with
  | nil => simp [fsWrite, fsLookup, h, Ne.symm h]
  | cons e rest ih =>
    by_cases he : e.1 = p
    · simp [fsWrite, fsLookup, he, h, Ne.symm h]
    · by_cases hq : e.1 = q <;> simp [fsWrite, fsLookup, he, hq, h, Ne.symm h, ih]

theorem mem_fsWrite_elim (fs : FS) (p : FsPath) (b : Bytes) (e : FsPath × Bytes)
    (h : e ∈ fsWrite fs p b) : e = (p, b) ∨ e ∈ fs := by
  induction fs with
  | nil => simpa [fsWrite] using h
  | cons f rest ih =>
    by_cases hf : f.1 = p
    · simp only [fsWrite, hf, if_true] at h
      rcases List.mem_cons.mp h with h | h
      · exact Or.inl h
      · exact Or.inr (List.mem_cons_of_mem _ h)
    · simp only [fsWrite, hf, if_false] at h
      rcases List.mem_cons.mp h with h | h
      · subst h
        exact Or.inr (List.mem_cons_self _ _)
      · rcases ih h with h | h
        · exact Or.inl h
        · exact Or.inr (List.mem_cons_of_mem _ h)

theorem lookupA_updateA_self {α : Type} (m : List (String × α)) (k : String)
    (f : Option α → α) : lookupA (updateA m k f) k = some (f (lookupA m k)) := by
  induction m with
  | nil => simp [updateA, lookupA]
  | cons e rest ih =>
    by_cases h : e.1 = k
    · simp [updateA, lookupA, h]
    · simp [updateA, lookupA, h, ih]

theorem lookupA_updateA_other {α : Type} (m : List (String × α)) (k q : String)
    (f : Option α → α) (h : q ≠ k) : lookupA (updateA m k f) q = lookupA m q := by
  induction m with
  | nil => simp [updateA, lookupA, h, Ne.symm h]
  | cons e rest ih =>
    by_cases he : e.1 = k
    · simp [updateA, lookupA, he, h, Ne.symm h]
    · by_cases hq : e.1 = q <;> simp [updateA, lookupA, he, hq, h, Ne.symm h, ih]

theorem lookupA_append_left {α : Type} (m1 m2 : List (String × α)) (k : String)
    (v : α) (h : lookupA m1 k = some v) : lookupA (m1 ++ m2) k = some v := by
  induction m1 with
  | nil => simp [lookupA] at h
  | cons e rest ih =>
    by_cases he : e.1 = k <;> simp_all [lookupA, List.cons_append]

theorem lookupA_append_right {α : Type} (m1 m2 : List (String × α)) (k : String)
    (h : lookupA m1 k = none) : lookupA (m1 ++ m2) k = lookupA m2 k := by
  induction m1 with
  | nil => simp
  | cons e rest ih =>
    by_cases he : e.1 = k <;> simp_all [lookupA, List.cons_append]

theorem fsLookup_isSome_of_mem (fs : FS) (p : FsPath) (c : Bytes) (h : (p, c) ∈ fs) :
    ∃ x, fsLookup fs p = some x := by
  induction fs with
  | nil => simp at h
  | cons e rest ih =>
    rcases List.mem_cons.mp h with h | h
    · refine ⟨e.2, ?_⟩
      rw [← h]
      simp [fsLookup]
    · by_cases he : e.1 = p
      · exact ⟨e.2, by simp [fsLookup, he]⟩
      · simpa [fsLookup, he] using ih h

end Aptify

namespace Aptify

/-! ## Invariants of the pool-copy phase (C2, and shared with C5/C6/C9) -/

/-- The component of the first reference in `done` whose source path is
`p` — the (release, component) pair that first processed the path. -/
def firstCompFor (done : List (String × String × String)) (p : String) : Option String :=
  (done.find? (fun r => decide (r.2.2 = p))).map (fun r => r.2.1)

theorem poolPath_head (c : String) (pkg : Package) (fp : FsPath)
    (h : poolPathForPackage c pkg = some fp) : ∃ rest, fp = "pool" :: rest := by
  unfold poolPathForPackage poolPathCore at h
  by_cases h1 : (processedSource pkg).length < 1
  · simp [h1] at h
  · rw [if_neg h1] at h
    by_cases h2 : (processedSource pkg).take 3 = ['l', 'i', 'b'] ∧ (processedSource pkg).length < 4
    · simp [h2] at h
    · rw [if_neg h2] at h
      injection h with h
      exact ⟨_, h.symm⟩

theorem firstCompFor_append_of_some (done : List (String × String × String))
    (t : String × String × String) (q x : String) (h : firstCompFor done q = some x) :
    firstCompFor (done ++ [t]) q = some x := by
  unfold firstCompFor at h ⊢
  rw [List.find?_append]
  match hf : done.find? (fun r => decide (r.2.2 = q)) with
  | none => rw [hf] at h; simp at h
  | some u =>
    rw [hf] at h
    rw [hf]
    simpa using h

theorem firstCompFor_append_of_none (done : List (String × String × String))
    (r c p : String) (q : String) (h : firstCompFor done q = none) :
    firstCompFor (done ++ [(r, c, p)]) q = if p = q then some c else none := by
  unfold firstCompFor at h ⊢
  rw [List.find?_append]
  match hf : done.find? (fun r => decide (r.2.2 = q)) with
  | some u => rw [hf] at h; simp at h
  | none =>
    rw [hf]
    by_cases hpq : p = q
    · subst hpq
      simp [List.find?]
    · simp [List.find?, hpq]

/-- The invariant carried through the package loop: the pool map is exactly
"pool path of the first pair that processed the path", each processed path
has been copied exactly once, every bucket entry's `Filename` agrees with
the pool map, all filesystem writes so far land under `pool/`, and every
architecture-map key is `release/component` of a processed reference. -/
structure PoolInv (O : Oracles) (repoDir : FsPath) (fs0 : FS)
    (done : List (String × String × String)) (st : PoolState) : Prop where
  first_ok : ∀ p c, firstCompFor done p = some c →
    ∃ fp, poolPathForPackage c (metaPkg O p) = some fp
  pool_eq : ∀ p, lookupA st.poolMap p =
    (firstCompFor done p).bind (fun c => poolPathForPackage c (metaPkg O p))
  copies_eq : ∀ p, st.copies.filter (fun e => decide (e.1 = p)) =
    (match lookupA st.poolMap p with
     | some fp => [(p, fp)]
     | none => [])
  buckets_ok : ∀ rc l, lookupA st.buckets rc = some l →
    ∀ p pkg, (p, pkg) ∈ l → lookupA st.poolMap p = some pkg.Filename
  fs_ok : ∀ e, e ∈ st.fs → e ∈ fs0 ∨ ∃ rest, e.1 = repoDir ++ ("pool" :: rest)
  archs_ok : ∀ k v, lookupA st.archs k = some v →
    ∃ r c p, (r, c, p) ∈ done ∧ k = r ++ "/" ++ c

theorem poolInv_init (O : Oracles) (repoDir : FsPath) (fs0 : FS) :
    PoolInv O repoDir fs0 [] (emptyPool fs0) := by
  refine ⟨?_, ?_, ?_, ?_, ?_, ?_⟩
  · intro p c h
    simp [firstCompFor] at h
  · intro p
    simp [emptyPool, lookupA, firstCompFor]
  · intro p
    simp [emptyPool, lookupA]
  · intro rc l h
    simp [emptyPool, lookupA] at h
  · intro e h
    exact Or.inl h
  · intro k v h
    simp [emptyPool, lookupA] at h

end Aptify

namespace Aptify

theorem poolStep_inv (O : Oracles) (repoDir : FsPath) (fs0 : FS)
    (done : List (String × String × String)) (st st1 : PoolState) (r c p : String)
    (hinv : PoolInv O repoDir fs0 done st)
    (h : poolStep O repoDir st (r, c, p) = some st1) :
    PoolInv O repoDir fs0 (done ++ [(r, c, p)]) st1 := by
  have harchs : ∀ k v,
      lookupA (archInsert st.archs (r ++ "/" ++ c) (metaPkg O p).Architecture) k = some v →
      ∃ r2 c2 p2, (r2, c2, p2) ∈ done ++ [(r, c, p)] ∧ k = r2 ++ "/" ++ c2 := by
    intro k v hk
    by_cases hkrc : k = r ++ "/" ++ c
    · exact ⟨r, c, p, List.mem_append_right _ (List.mem_singleton.mpr rfl), hkrc⟩
    · rw [archInsert, lookupA_updateA_other _ _ _ _ hkrc] at hk
      obtain ⟨r2, c2, p2, hmem, hk2⟩ := hinv.archs_ok k v hk
      exact ⟨r2, c2, p2, List.mem_append_left _ hmem, hk2⟩
  have hfirst_same : ∀ q, q ≠ p →
      firstCompFor (done ++ [(r, c, p)]) q = firstCompFor done q := by
    intro q hq
    match hf : firstCompFor done q with
    | some x => exact firstCompFor_append_of_some done (r, c, p) q x hf
    | none =>
      rw [firstCompFor_append_of_none done r c p q hf, if_neg (fun hh => hq hh.symm)]
  unfold poolStep at h
  dsimp only at h
  match hl : lookupA st.poolMap p with
  | none =>
    rw [hl] at h
    dsimp only at h
    have hfcp : firstCompFor done p = none := by
      have := hinv.pool_eq p
      rw [hl] at this
      match hf : firstCompFor done p with
      | none => rfl
      | some c0 =>
        obtain ⟨fp0, hfp0⟩ := hinv.first_ok p c0 hf
        rw [hf] at this
        simp [hfp0] at this
    have hfcp1 : firstCompFor (done ++ [(r, c, p)]) p = some c := by
      rw [firstCompFor_append_of_none done r c p p hfcp, if_pos rfl]
    match hpp : poolPathForPackage c (metaPkg O p) with
    | none => rw [hpp] at h; simp at h
    | some fp =>
      rw [hpp] at h
      dsimp only at h
      match hlk : fsLookup (fsWrite st.fs (repoDir ++ fp) (O.fileBytes p)) (repoDir ++ fp) with
      | none => rw [hlk] at h; simp at h
      | some b =>
        rw [hlk] at h
        dsimp only at h
        simp only [Option.some_inj] at h
        subst h
        refine ⟨?_, ?_, ?_, ?_, ?_, ?_⟩
        · -- first_ok
          intro q c2 hq
          by_cases hqp : q = p
          · subst hqp
            rw [hfcp1] at hq
            exact ⟨fp, by rw [← Option.some_inj.mp hq]; exact hpp⟩
          · rw [hfirst_same q hqp] at hq
            exact hinv.first_ok q c2 hq
        · -- pool_eq
          intro q
          by_cases hqp : q = p
          · subst hqp
            show lookupA (st.poolMap ++ [(q, fp)]) q = _
            rw [lookupA_append_right _ _ _ hl, hfcp1]
            simp [lookupA, hpp]
          · show lookupA (st.poolMap ++ [(p, fp)]) q = _
            rw [hfirst_same q hqp, ← hinv.pool_eq q]
            match hg : lookupA st.poolMap q with
            | some v => exact lookupA_append_left _ _ _ _ hg
            | none =>
              rw [lookupA_append_right _ _ _ hg]
              simp [lookupA, Ne.symm hqp]
        · -- copies_eq
          intro q
          show (st.copies ++ [(p, fp)]).filter (fun e => decide (e.1 = q)) = _
          rw [List.filter_append]
          by_cases hqp : q = p
          · subst hqp
            have h0 := hinv.copies_eq q
            rw [hl] at h0
            rw [h0]
            show _ = (match lookupA (st.poolMap ++ [(q, fp)]) q with
              | some fp => [(q, fp)] | none => [])
            rw [lookupA_append_right _ _ _ hl]
            simp [lookupA, List.filter]
          · have h0 := hinv.copies_eq q
            rw [h0]
            show _ = (match lookupA (st.poolMap ++ [(p, fp)]) q with
              | some fp => [(q, fp)] | none => [])
            have hfq : ([(p, fp)] : List (String × FsPath)).filter
                (fun e => decide (e.1 = q)) = [] := by
              simp [List.filter, Ne.symm hqp]
            rw [hfq, List.append_nil]
            match hg : lookupA st.poolMap q with
            | some v => rw [lookupA_append_left _ _ _ _ hg]
            | none =>
              rw [lookupA_append_right _ _ _ hg]
              simp [lookupA, Ne.symm hqp]
        · -- buckets_ok
          intro rc2 l hrc2 q pkg hql
          by_cases hk : rc2 = r ++ "/" ++ c
          · subst hk
            rw [bucketAdd, lookupA_updateA_self] at hrc2
            have hl2 := Option.some_inj.mp hrc2
            match hg : lookupA st.buckets (r ++ "/" ++ c) with
            | none =>
              rw [hg] at hl2
              simp only at hl2
              rw [← hl2] at hql
              rcases List.mem_singleton.mp hql with hq
              have h1 : q = p := congrArg Prod.fst hq
              have h2 : pkg = { metaPkg O p with Filename := fp, Size := b.length } :=
                congrArg Prod.snd hq
              subst h1
              rw [h2]
              rw [lookupA_append_right _ _ _ hl]
              simp [lookupA]
            | some l0 =>
              rw [hg] at hl2
              simp only at hl2
              rw [← hl2] at hql
              rcases List.mem_append.mp hql with hq | hq
              · have := hinv.buckets_ok _ _ hg q pkg hq
                exact lookupA_append_left _ _ _ _ this
              · rcases List.mem_singleton.mp hq with hq
                have h1 : q = p := congrArg Prod.fst hq
                have h2 : pkg = { metaPkg O p with Filename := fp, Size := b.length } :=
                  congrArg Prod.snd hq
                subst h1
                rw [h2]
                rw [lookupA_append_right _ _ _ hl]
                simp [lookupA]
          · rw [bucketAdd, lookupA_updateA_other _ _ _ _ hk] at hrc2
            have := hinv.buckets_ok _ _ hrc2 q pkg hql
            exact lookupA_append_left _ _ _ _ this
        · -- fs_ok
          intro e he
          rcases mem_fsWrite_elim _ _ _ _ he with he | he
          · right
            obtain ⟨rest, hrest⟩ := poolPath_head c (metaPkg O p) fp hpp
            exact ⟨rest, by rw [he, hrest]⟩
          · exact hinv.fs_ok e he
        · -- archs_ok
          exact harchs
  | some fp =>
    rw [hl] at h
    dsimp only at h
    match hlk : fsLookup st.fs (repoDir ++ fp) with
    | none => rw [hlk] at h; simp at h
    | some b =>
      rw [hlk] at h
      dsimp only at h
      simp only [Option.some_inj] at h
      subst h
      have hfcp : ∃ c0, firstCompFor done p = some c0 := by
        have := hinv.pool_eq p
        rw [hl] at this
        match hf : firstCompFor done p with
        | some c0 => exact ⟨c0, rfl⟩
        | none => rw [hf] at this; simp at this
      refine ⟨?_, ?_, ?_, ?_, ?_, ?_⟩
      · intro q c2 hq
        by_cases hqp : q = p
        · subst hqp
          obtain ⟨c0, hc0⟩ := hfcp
          rw [firstCompFor_append_of_some done (r, c, q) q c0 hc0] at hq
          exact hinv.first_ok q c2 (by rw [hc0, Option.some_inj.mp hq])
        · rw [hfirst_same q hqp] at hq
          exact hinv.first_ok q c2 hq
      · intro q
        by_cases hqp : q = p
        · subst hqp
          obtain ⟨c0, hc0⟩ := hfcp
          show lookupA st.poolMap q = _
          rw [firstCompFor_append_of_some done (r, c, q) q c0 hc0, ← hc0]
          exact hinv.pool_eq q
        · show lookupA st.poolMap q = _
          rw [hfirst_same q hqp]
          exact hinv.pool_eq q
      · intro q
        exact hinv.copies_eq q
      · intro rc2 l hrc2 q pkg hql
        by_cases hk : rc2 = r ++ "/" ++ c
        · subst hk
          rw [bucketAdd, lookupA_updateA_self] at hrc2
          have hl2 := Option.some_inj.mp hrc2
          match hg : lookupA st.buckets (r ++ "/" ++ c) with
          | none =>
            rw [hg] at hl2
            simp only at hl2
            rw [← hl2] at hql
            rcases List.mem_singleton.mp hql with hq
            have h1 : q = p := congrArg Prod.fst hq
            have h2 : pkg = { metaPkg O p with Filename := fp, Size := b.length } :=
              congrArg Prod.snd hq
            subst h1
            rw [h2]
            exact hl
          | some l0 =>
            rw [hg] at hl2
            simp only at hl2
            rw [← hl2] at hql
            rcases List.mem_append.mp hql with hq | hq
            · exact hinv.buckets_ok _ _ hg q pkg hq
            · rcases List.mem_singleton.mp hq with hq
              have h1 : q = p := congrArg Prod.fst hq
              have h2 : pkg = { metaPkg O p with Filename := fp, Size := b.length } :=
                congrArg Prod.snd hq
              subst h1
              rw [h2]
              exact hl
        · rw [bucketAdd, lookupA_updateA_other _ _ _ _ hk] at hrc2
          exact hinv.buckets_ok _ _ hrc2 q pkg hql
      · exact hinv.fs_ok
      · exact harchs

end Aptify

namespace Aptify

theorem poolFold_inv (O : Oracles) (repoDir : FsPath) (fs0 : FS) :
    ∀ (todo done : List (String × String × String)) (st st1 : PoolState),
      PoolInv O repoDir fs0 done st →
      todo.foldlM (poolStep O repoDir) st = some st1 →
      PoolInv O repoDir fs0 (done ++ todo) st1
  | [], done, st, st1, hinv, h => by
    simp only [List.foldlM_nil] at h
    rw [List.append_nil]
    cases h
    exact hinv
  | t :: todo, done, st, st1, hinv, h => by
    obtain ⟨r, c, p⟩ := t
    rw [List.foldlM_cons] at h
    match hs : poolStep O repoDir st (r, c, p) with
    | none => rw [hs] at h; simp at h
    | some st2 =>
      rw [hs] at h
      have hinv2 := poolStep_inv O repoDir fs0 done st st2 r c p hinv hs
      have := poolFold_inv O repoDir fs0 todo (done ++ [(r, c, p)]) st2 st1 hinv2 h
      rwa [List.append_assoc, List.singleton_append] at this

theorem poolPhase_inv (O : Oracles) (repoDir : FsPath) (conf : Config) (fs0 : FS)
    (st : PoolState) (h : poolPhase O repoDir conf fs0 = some st) :
    PoolInv O repoDir fs0 (refsOfConfig conf) st := by
  have := poolFold_inv O repoDir fs0 (refsOfConfig conf) [] (emptyPool fs0) st
    (poolInv_init O repoDir fs0) h
  simpa using this

theorem buildRepository_pool_state (O : Oracles) (repoDir : FsPath) (conf : Config)
    (now : Nat) (fs0 : FS) (res : BuildResult)
    (h : buildRepository O repoDir conf now fs0 = some res) :
    ∃ st, poolPhase O repoDir conf fs0 = some st ∧
      res.buckets = st.buckets ∧ res.archs = st.archs ∧
      res.poolMap = st.poolMap ∧ res.copies = st.copies := by
  unfold buildRepository at h
  match hp : poolPhase O repoDir conf fs0 with
  | none => rw [hp] at h; simp at h
  | some st =>
    rw [hp] at h
    dsimp only at h
    match hf : conf.releases.foldlM (releaseStep O repoDir st now) (st.fs, []) with
    | none => rw [hf] at h; simp at h
    | some acc =>
      rw [hf] at h
      cases h
      exact ⟨st, rfl, rfl, rfl, rfl, rfl⟩

end Aptify

namespace Aptify

/-- C2: for every source `.deb` path referenced in a build (in particular
one referenced by two or more (release, component) pairs), the pool
manager copies the file's bytes into the output tree exactly once, and
every Package entry derived from that source path carries the identical
`Filename` — the pool path assigned by the first (release, component) pair
that processed it. -/
theorem c2_pool_dedup (O : Oracles) (repoDir : FsPath) (conf : Config) (now : Nat)
    (fs0 : FS) (res : BuildResult) (p : String)
    (hb : buildRepository O repoDir conf now fs0 = some res)
    (hp : p ∈ (refsOfConfig conf).map (fun t => t.2.2)) :
    (res.copies.filter (fun e => decide (e.1 = p))).length = 1 ∧
    ∃ c fp, firstCompFor (refsOfConfig conf) p = some c ∧
      poolPathForPackage c (metaPkg O p) = some fp ∧
      lookupA res.poolMap p = some fp ∧
      ∀ rc l pkg, lookupA res.buckets rc = some l → (p, pkg) ∈ l → pkg.Filename = fp := by
  obtain ⟨st, hst, hbuckets, harchs, hpool, hcopies⟩ :=
    buildRepository_pool_state O repoDir conf now fs0 res hb
  have hinv := poolPhase_inv O repoDir conf fs0 st hst
  obtain ⟨t, htmem, htp⟩ := List.mem_map.mp hp
  have hfind : ((refsOfConfig conf).find? (fun r => decide (r.2.2 = p))).isSome := by
    rw [List.find?_isSome]
    exact ⟨t, htmem, by simp [htp]⟩
  obtain ⟨u, hu⟩ := Option.isSome_iff_exists.mp hfind
  have hfc : firstCompFor (refsOfConfig conf) p = some u.2.1 := by
    unfold firstCompFor
    rw [hu]
    rfl
  obtain ⟨fp, hfp⟩ := hinv.first_ok p u.2.1 hfc
  have hlook : lookupA st.poolMap p = some fp := by
    rw [hinv.pool_eq p, hfc]
    simpa using hfp
  constructor
  · rw [hcopies]
    have := hinv.copies_eq p
    rw [hlook] at this
    rw [this]
    rfl
  · refine ⟨u.2.1, fp, hfc, hfp, by rw [hpool]; exact hlook, ?_⟩
    intro rc l pkg hrc hpl
    rw [hbuckets] at hrc
    have := hinv.buckets_ok rc l hrc p pkg hpl
    rw [hlook] at this
    exact (Option.some_inj.mp this).symm

/-- Concrete oracles for the example builds: every external collaborator
is a tagging function, so distinct inputs stay distinguishable. -/
def sampleOracles : Oracles :=
  { hash := fun b => "H(" ++ b ++ ")"
    fileBytes := fun p => "BYTES:" ++ p
    meta := fun _ => { Name := "foo", Version := "1.0", Architecture := "amd64",
                       Source := "", Section := "", Filename := [], Size := 0, SHA256 := "" }
    contentsOf := fun _ => ["usr/bin/foo"]
    marshalPackages := fun ps => String.join (ps.map (fun q => q.Name ++ "_" ++ q.Version ++ ";"))
    xz := fun b => "XZ(" ++ b ++ ")"
    gz := fun b => "GZ(" ++ b ++ ")"
    encodeRelease := fun rel => "SIGNED(" ++ rel.Codename ++ ")"
    pubKey := "PUBKEY" }

/-- A configuration in which two components of one release reference the
same source package path. -/
def c2conf : Config :=
  { releases := [{ name := "r", version := "1", origin := "o", label := "l", suite := "s",
                   description := "d",
                   components := [{ name := "main", packages := ["a.deb"] },
                                  { name := "extra", packages := ["a.deb"] }] }] }

/-- Witness for C2: the shared path `a.deb` of `c2conf` is copied once and
keeps the pool path of the first component. -/
theorem c2_pool_dedup_witness :
    ∃ res, buildRepository sampleOracles ["out"] c2conf 0 [] = some res ∧
      (res.copies.filter (fun e => decide (e.1 = "a.deb"))).length = 1 ∧
      ∃ c fp, firstCompFor (refsOfConfig c2conf) "a.deb" = some c ∧
        poolPathForPackage c (metaPkg sampleOracles "a.deb") = some fp ∧
        lookupA res.poolMap "a.deb" = some fp := by
  match hres : buildRepository sampleOracles ["out"] c2conf 0 [] with
  | none => exact absurd hres (by decide)
  | some res =>
    have h := c2_pool_dedup sampleOracles ["out"] c2conf 0 [] res "a.deb" hres (by decide)
    obtain ⟨c, fp, h1, h2, h3, _⟩ := h.2
    exact ⟨res, rfl, h.1, c, fp, h1, h2, h3⟩

end Aptify

namespace Aptify

/-! ## Classification of the writes of the release loop (C6) -/

theorem underDir_self_append (dir rest : FsPath) (h : rest ≠ []) :
    underDir dir (dir ++ rest) = true := by
  unfold underDir
  rw [decide_eq_true_iff]
  constructor
  · exact List.take_left dir rest
  · simp [List.length_append]
    exact List.length_pos.mpr h

theorem underDir_dists_name (repoDir : FsPath) (n1 n2 : String) (rest : FsPath)
    (h : underDir (repoDir ++ ["dists", n1]) (repoDir ++ ["dists", n2] ++ rest) = true) :
    n1 = n2 := by
  unfold underDir at h
  rw [decide_eq_true_iff] at h
  obtain ⟨h1, _⟩ := h
  have hlen : (repoDir ++ ["dists", n1]).length = (repoDir ++ ["dists", n2]).length := by
    simp [List.length_append]
  rw [hlen, List.take_left (repoDir ++ ["dists", n2]) rest] at h1
  have h2 := List.append_cancel_left h1
  injection h2 with h3 h4
  injection h4 with h5
  exact h5.symm

theorem mem_writePackagesFS (O : Oracles) (archDir : FsPath) (packages : List Package)
    (fs : FS) (e : FsPath × Bytes) (h : e ∈ writePackagesFS O archDir packages fs) :
    e.1 = archDir ++ ["Packages"] ∨ e.1 = archDir ++ ["Packages.xz"] ∨ e ∈ fs := by
  unfold writePackagesFS at h
  rcases mem_fsWrite_elim _ _ _ _ h with h | h
  · exact Or.inr (Or.inl (by rw [h]))
  · rcases mem_fsWrite_elim _ _ _ _ h with h | h
    · exact Or.inl (by rw [h])
    · exact Or.inr (Or.inr h)

theorem mem_writeContentsFS (O : Oracles) (repoDir componentDir : FsPath)
    (packages : List Package) (a : String) (fs fs2 : FS) (e : FsPath × Bytes)
    (h : writeContentsFS O repoDir componentDir packages a fs = some fs2) (he : e ∈ fs2) :
    e.1 = componentDir ++ ["Contents-" ++ a ++ ".gz"] ∨ e ∈ fs := by
  unfold writeContentsFS at h
  match hc : collectContents O repoDir fs packages [] with
  | none => rw [hc] at h; simp at h
  | some m =>
    rw [hc] at h
    dsimp only at h
    cases h
    rcases mem_fsWrite_elim _ _ _ _ he with he | he
    · exact Or.inl (by rw [he])
    · exact Or.inr he

end Aptify

namespace Aptify

/-- The body of the inner (architecture) loop of the release index phase. -/
def archStep (O : Oracles) (repoDir : FsPath) (st : PoolState) (relConf : ReleaseConfig)
    (comp : ComponentConfig) (fsa : FS) (a : String) : Option FS :=
  let rc := relConf.name ++ "/" ++ comp.name
  let componentDir := repoDir ++ ["dists", relConf.name, comp.name]
  writeContentsFS O repoDir componentDir (packagesForArch (bucketPackages st rc) a) a
    (writePackagesFS O (componentDir ++ ["binary-" ++ a])
      (packagesForArch (bucketPackages st rc) a) fsa)

theorem releaseIndexPhase_eq (O : Oracles) (repoDir : FsPath) (st : PoolState)
    (relConf : ReleaseConfig) (fs : FS) :
    releaseIndexPhase O repoDir st relConf fs =
      relConf.components.foldlM (fun fsc comp =>
        ((lookupA st.archs (relConf.name ++ "/" ++ comp.name)).getD []).foldlM
          (archStep O repoDir st relConf comp) fsc) fs := rfl

theorem mem_archStep (O : Oracles) (repoDir : FsPath) (st : PoolState)
    (relConf : ReleaseConfig) (comp : ComponentConfig) (fsa fs2 : FS) (a : String)
    (e : FsPath × Bytes) (h : archStep O repoDir st relConf comp fsa a = some fs2)
    (he : e ∈ fs2) :
    (∃ rest, e.1 = repoDir ++ ["dists", relConf.name] ++ rest) ∨ e ∈ fsa := by
  unfold archStep at h
  rcases mem_writeContentsFS _ _ _ _ _ _ _ _ h he with he2 | he2
  · exact Or.inl ⟨[comp.name, "Contents-" ++ a ++ ".gz"], by rw [he2]; simp⟩
  · rcases mem_writePackagesFS _ _ _ _ _ he2 with he3 | he3 | he3
    · exact Or.inl ⟨[comp.name, "binary-" ++ a, "Packages"], by rw [he3]; simp⟩
    · exact Or.inl ⟨[comp.name, "binary-" ++ a, "Packages.xz"], by rw [he3]; simp⟩
    · exact Or.inr he3

theorem mem_archFold (O : Oracles) (repoDir : FsPath) (st : PoolState)
    (relConf : ReleaseConfig) (comp : ComponentConfig) :
    ∀ (archList : List String) (fsa fs2 : FS),
      archList.foldlM (archStep O repoDir st relConf comp) fsa = some fs2 →
      ∀ e ∈ fs2, (∃ rest, e.1 = repoDir ++ ["dists", relConf.name] ++ rest) ∨ e ∈ fsa
  | [], fsa, fs2, h, e, he => by
    simp only [List.foldlM_nil] at h
    cases h
    exact Or.inr he
  | a :: rest, fsa, fs2, h, e, he => by
    rw [List.foldlM_cons] at h
    match hs : archStep O repoDir st relConf comp fsa a with
    | none => rw [hs] at h; simp at h
    | some fs1 =>
      rw [hs] at h
      rcases mem_archFold O repoDir st relConf comp rest fs1 fs2 h e he with h2 | h2
      · exact Or.inl h2
      · exact mem_archStep O repoDir st relConf comp fsa fs1 a e hs h2

theorem mem_releaseIndexPhase (O : Oracles) (repoDir : FsPath) (st : PoolState)
    (relConf : ReleaseConfig) :
    ∀ (comps : List ComponentConfig) (fs fs2 : FS),
      comps.foldlM (fun fsc comp =>
        ((lookupA st.archs (relConf.name ++ "/" ++ comp.name)).getD []).foldlM
          (archStep O repoDir st relConf comp) fsc) fs = some fs2 →
      ∀ e ∈ fs2, (∃ rest, e.1 = repoDir ++ ["dists", relConf.name] ++ rest) ∨ e ∈ fs
  | [], fs, fs2, h, e, he => by
    simp only [List.foldlM_nil] at h
    cases h
    exact Or.inr he
  | comp :: comps, fs, fs2, h, e, he => by
    rw [List.foldlM_cons] at h
    match hs : ((lookupA st.archs (relConf.name ++ "/" ++ comp.name)).getD []).foldlM
        (archStep O repoDir st relConf comp) fs with
    | none => rw [hs] at h; simp at h
    | some fs1 =>
      rw [hs] at h
      rcases mem_releaseIndexPhase O repoDir st relConf comps fs1 fs2 h e he with h2 | h2
      · exact Or.inl h2
      · exact mem_archFold O repoDir st relConf comp _ fs fs1 hs e h2

theorem compsFold_no_archs (O : Oracles) (repoDir : FsPath) (st : PoolState)
    (relConf : ReleaseConfig) :
    ∀ (comps : List ComponentConfig) (fs : FS),
      (∀ comp ∈ comps, lookupA st.archs (relConf.name ++ "/" ++ comp.name) = none) →
      comps.foldlM (fun fsc comp =>
        ((lookupA st.archs (relConf.name ++ "/" ++ comp.name)).getD []).foldlM
          (archStep O repoDir st relConf comp) fsc) fs = some fs
  | [], fs, _ => by simp
  | comp :: comps, fs, h => by
    rw [List.foldlM_cons, h comp (List.mem_cons_self _ _)]
    exact compsFold_no_archs O repoDir st relConf comps fs
      (fun c hc => h c (List.mem_cons_of_mem _ hc))

/-- A release none of whose (component, architecture) buckets exist writes
no index files at all. -/
theorem releaseIndexPhase_no_archs (O : Oracles) (repoDir : FsPath) (st : PoolState)
    (relConf : ReleaseConfig)
    (h : ∀ comp ∈ relConf.components,
      lookupA st.archs (relConf.name ++ "/" ++ comp.name) = none) :
    ∀ fs, releaseIndexPhase O repoDir st relConf fs = some fs := by
  intro fs
  rw [releaseIndexPhase_eq]
  exact compsFold_no_archs O repoDir st relConf relConf.components fs h

end Aptify

namespace Aptify

theorem fsLookup_isSome_fsWrite (fs : FS) (p q : FsPath) (b : Bytes)
    (h : ∃ x, fsLookup fs p = some x) : ∃ x, fsLookup (fsWrite fs q b) p = some x := by
  by_cases hpq : p = q
  · subst hpq
    exact ⟨b, fsLookup_fsWrite_self fs p b⟩
  · rw [fsLookup_fsWrite_other fs q p b hpq]
    exact h

theorem presence_writeContentsFS (O : Oracles) (repoDir componentDir : FsPath)
    (packages : List Package) (a : String) (fs fs2 : FS) (p : FsPath)
    (h : writeContentsFS O repoDir componentDir packages a fs = some fs2)
    (hp : ∃ x, fsLookup fs p = some x) : ∃ x, fsLookup fs2 p = some x := by
  unfold writeContentsFS at h
  match hc : collectContents O repoDir fs packages [] with
  | none => rw [hc] at h; simp at h
  | some m =>
    rw [hc] at h
    dsimp only at h
    cases h
    exact fsLookup_isSome_fsWrite _ _ _ _ hp

theorem presence_archStep (O : Oracles) (repoDir : FsPath) (st : PoolState)
    (relConf : ReleaseConfig) (comp : ComponentConfig) (fsa fs2 : FS) (a : String)
    (p : FsPath) (h : archStep O repoDir st relConf comp fsa a = some fs2)
    (hp : ∃ x, fsLookup fsa p = some x) : ∃ x, fsLookup fs2 p = some x := by
  unfold archStep at h
  refine presence_writeContentsFS _ _ _ _ _ _ _ _ h ?_
  unfold writePackagesFS
  exact fsLookup_isSome_fsWrite _ _ _ _ (fsLookup_isSome_fsWrite _ _ _ _ hp)

theorem presence_archFold (O : Oracles) (repoDir : FsPath) (st : PoolState)
    (relConf : ReleaseConfig) (comp : ComponentConfig) :
    ∀ (archList : List String) (fsa fs2 : FS) (p : FsPath),
      archList.foldlM (archStep O repoDir st relConf comp) fsa = some fs2 →
      (∃ x, fsLookup fsa p = some x) → ∃ x, fsLookup fs2 p = some x
  | [], fsa, fs2, p, h, hp => by
    simp only [List.foldlM_nil] at h
    cases h
    exact hp
  | a :: rest, fsa, fs2, p, h, hp => by
    rw [List.foldlM_cons] at h
    match hs : archStep O repoDir st relConf comp fsa a with
    | none => rw [hs] at h; simp at h
    | some fs1 =>
      rw [hs] at h
      exact presence_archFold O repoDir st relConf comp rest fs1 fs2 p h
        (presence_archStep O repoDir st relConf comp fsa fs1 a p hs hp)

theorem presence_compsFold (O : Oracles) (repoDir : FsPath) (st : PoolState)
    (relConf : ReleaseConfig) :
    ∀ (comps : List ComponentConfig) (fs fs2 : FS) (p : FsPath),
      comps.foldlM (fun fsc comp =>
        ((lookupA st.archs (relConf.name ++ "/" ++ comp.name)).getD []).foldlM
          (archStep O repoDir st relConf comp) fsc) fs = some fs2 →
      (∃ x, fsLookup fs p = some x) → ∃ x, fsLookup fs2 p = some x
  | [], fs, fs2, p, h, hp => by
    simp only [List.foldlM_nil] at h
    cases h
    exact hp
  | comp :: comps, fs, fs2, p, h, hp => by
    rw [List.foldlM_cons] at h
    match hs : ((lookupA st.archs (relConf.name ++ "/" ++ comp.name)).getD []).foldlM
        (archStep O repoDir st relConf comp) fs with
    | none => rw [hs] at h; simp at h
    | some fs1 =>
      rw [hs] at h
      exact presence_compsFold O repoDir st relConf comps fs1 fs2 p h
        (presence_archFold O repoDir st relConf comp _ fs fs1 p hs hp)

theorem presence_releaseStep (O : Oracles) (repoDir : FsPath) (st : PoolState) (now : Nat)
    (acc acc2 : FS × List (String × Release)) (relConf : ReleaseConfig) (p : FsPath)
    (h : releaseStep O repoDir st now acc relConf = some acc2)
    (hp : ∃ x, fsLookup acc.1 p = some x) : ∃ x, fsLookup acc2.1 p = some x := by
  unfold releaseStep at h
  match hs : releaseIndexPhase O repoDir st relConf acc.1 with
  | none => rw [hs] at h; simp at h
  | some fs1 =>
    rw [hs] at h
    dsimp only at h
    cases h
    show ∃ x, fsLookup (writeReleaseFS O repoDir st relConf now fs1).2 p = some x
    unfold writeReleaseFS
    refine fsLookup_isSome_fsWrite _ _ _ _ ?_
    rw [releaseIndexPhase_eq] at hs
    exact presence_compsFold O repoDir st relConf relConf.components acc.1 fs1 p hs hp

theorem presence_releasesFold (O : Oracles) (repoDir : FsPath) (st : PoolState) (now : Nat) :
    ∀ (rels : List ReleaseConfig) (acc acc2 : FS × List (String × Release)) (p : FsPath),
      rels.foldlM (releaseStep O repoDir st now) acc = some acc2 →
      (∃ x, fsLookup acc.1 p = some x) → ∃ x, fsLookup acc2.1 p = some x
  | [], acc, acc2, p, h, hp => by
    simp only [List.foldlM_nil] at h
    cases h
    exact hp
  | relConf :: rels, acc, acc2, p, h, hp => by
    rw [List.foldlM_cons] at h
    match hs : releaseStep O repoDir st now acc relConf with
    | none => rw [hs] at h; simp at h
    | some acc1 =>
      rw [hs] at h
      exact presence_releasesFold O repoDir st now rels acc1 acc2 p h
        (presence_releaseStep O repoDir st now acc acc1 relConf p hs hp)

theorem append_slash_inj :
    ∀ (x u : List Char) (y v : List Char), ¬ '/' ∈ x → ¬ '/' ∈ u →
      x ++ '/' :: y = u ++ '/' :: v → x = u ∧ y = v
  | [], [], y, v, _, _, h => by simpa using h
  | [], a :: us, y, v, _, hu, h => by
    simp only [List.nil_append, List.cons_append, List.cons.injEq] at h
    exact absurd (List.mem_cons_self a us) (by rw [← h.1] at hu ⊢; exact hu)
  | a :: xs, [], y, v, hx, _, h => by
    simp only [List.nil_append, List.cons_append, List.cons.injEq] at h
    exact absurd (List.mem_cons_self a xs) (by rw [h.1] at hx ⊢; exact hx)
  | a :: xs, b :: us, y, v, hx, hu, h => by
    simp only [List.cons_append, List.cons.injEq] at h
    obtain ⟨hab, h2⟩ := h
    have hx2 : ¬ '/' ∈ xs := fun hc => hx (List.mem_cons_of_mem _ hc)
    have hu2 : ¬ '/' ∈ us := fun hc => hu (List.mem_cons_of_mem _ hc)
    obtain ⟨h3, h4⟩ := append_slash_inj xs us y v hx2 hu2 h2
    exact ⟨by rw [hab, h3], h4⟩

/-- A name free of `/`, so that `release ++ "/" ++ component` keys are
unambiguous. -/
def noSlash (s : String) : Prop := ¬ '/' ∈ s.data

instance : DecidablePred noSlash := fun s =>
  inferInstanceAs (Decidable (¬ '/' ∈ s.data))

theorem rc_key_inj (a b c d : String) (ha : noSlash a) (hc : noSlash c)
    (h : a ++ "/" ++ b = c ++ "/" ++ d) : a = c ∧ b = d := by
  rw [strEqIffData] at h
  simp only [String.data_append] at h
  have h2 : a.data ++ '/' :: b.data = c.data ++ '/' :: d.data := by
    simpa using h
  obtain ⟨h3, h4⟩ := append_slash_inj a.data c.data b.data d.data ha hc h2
  exact ⟨(strEqIffData a c).mpr h3, (strEqIffData b d).mpr h4⟩

theorem mem_refsOfConfig (conf : Config) (r c p : String)
    (h : (r, c, p) ∈ refsOfConfig conf) :
    ∃ x ∈ conf.releases, x.name = r ∧ ∃ cc ∈ x.components, cc.name = c ∧ p ∈ cc.packages := by
  unfold refsOfConfig at h
  rw [List.mem_flatMap] at h
  obtain ⟨x, hx, h2⟩ := h
  rw [List.mem_flatMap] at h2
  obtain ⟨cc, hcc, h3⟩ := h2
  rw [List.mem_map] at h3
  obtain ⟨q, hq, h4⟩ := h3
  injection h4 with h5 h6
  injection h6 with h6 h7
  exact ⟨x, hx, h5, cc, hcc, h6, by rw [← h7]; exact hq⟩

end Aptify

namespace Aptify

theorem releaseStep_inrelease (O : Oracles) (repoDir : FsPath) (st : PoolState) (now : Nat)
    (acc acc2 : FS × List (String × Release)) (relConf : ReleaseConfig)
    (h : releaseStep O repoDir st now acc relConf = some acc2) :
    ∃ b, fsLookup acc2.1 (repoDir ++ ["dists", relConf.name, "InRelease"]) = some b := by
  unfold releaseStep at h
  match hs : releaseIndexPhase O repoDir st relConf acc.1 with
  | none => rw [hs] at h; simp at h
  | some fs1 =>
    rw [hs] at h
    dsimp only at h
    cases h
    show ∃ b, fsLookup (writeReleaseFS O repoDir st relConf now fs1).2 _ = some b
    unfold writeReleaseFS
    have heq : repoDir ++ ["dists", relConf.name] ++ ["InRelease"] =
        repoDir ++ ["dists", relConf.name, "InRelease"] := by simp
    rw [← heq]
    exact ⟨_, fsLookup_fsWrite_self _ _ _⟩

theorem releasesFold_inrelease (O : Oracles) (repoDir : FsPath) (st : PoolState) (now : Nat) :
    ∀ (rels : List ReleaseConfig) (acc acc2 : FS × List (String × Release)),
      rels.foldlM (releaseStep O repoDir st now) acc = some acc2 →
      ∀ x ∈ rels, ∃ b, fsLookup acc2.1 (repoDir ++ ["dists", x.name, "InRelease"]) = some b
  | [], acc, acc2, h, x, hx => by simp at hx
  | relConf :: rels, acc, acc2, h, x, hx => by
    rw [List.foldlM_cons] at h
    match hs : releaseStep O repoDir st now acc relConf with
    | none => rw [hs] at h; simp at h
    | some acc1 =>
      rw [hs] at h
      rcases List.mem_cons.mp hx with hx | hx
      · subst hx
        exact presence_releasesFold O repoDir st now rels acc1 acc2 _ h
          (releaseStep_inrelease O repoDir st now acc acc1 x hs)
      · exact releasesFold_inrelease O repoDir st now rels acc1 acc2 h x hx

/-- A path strictly below `dists/<rname>` that is not that release's
`InRelease`: the paths the amended C6 says must not exist for a
zero-package release. -/
def badR (repoDir : FsPath) (rname : String) (p : FsPath) : Prop :=
  underDir (repoDir ++ ["dists", rname]) p = true ∧
    p ≠ repoDir ++ ["dists", rname, "InRelease"]

theorem underDir_short (dir p : FsPath) (h : p.length ≤ dir.length) :
    underDir dir p = false := by
  unfold underDir
  rw [decide_eq_false_iff_not]
  intro hc
  exact absurd hc.2 (Nat.not_lt.mpr h)

theorem underDir_dists_pool (repoDir : FsPath) (n : String) (rest : FsPath) :
    underDir (repoDir ++ ["dists", n]) (repoDir ++ "pool" :: rest) = false := by
  unfold underDir
  rw [decide_eq_false_iff_not]
  intro hc
  obtain ⟨h1, _⟩ := hc
  have hlen : (repoDir ++ ["dists", n]).length = repoDir.length + 2 := by
    simp [List.length_append]
  rw [hlen, List.take_append] at h1
  have h2 := List.append_cancel_left h1
  cases rest with
  | nil => simp [List.take] at h2
  | cons a rs =>
    simp only [List.take, List.cons.injEq] at h2
    exact absurd h2.1 (by decide)

theorem not_badR_of_other_dists (repoDir : FsPath) (rname n : String) (rest : FsPath)
    (hne : n ≠ rname) : ¬ badR repoDir rname (repoDir ++ ["dists", n] ++ rest) := by
  intro hc
  exact hne ((underDir_dists_name repoDir rname n rest hc.1).symm)

theorem releasesFold_no_extra (O : Oracles) (repoDir : FsPath) (st : PoolState) (now : Nat)
    (rname : String) :
    ∀ (rels : List ReleaseConfig) (acc acc2 : FS × List (String × Release)),
      rels.foldlM (releaseStep O repoDir st now) acc = some acc2 →
      (∀ x ∈ rels, x.name = rname → ∀ fs, releaseIndexPhase O repoDir st x fs = some fs) →
      (∀ e ∈ acc.1, ¬ badR repoDir rname e.1) →
      ∀ e ∈ acc2.1, ¬ badR repoDir rname e.1
  | [], acc, acc2, h, _, hacc, e, he => by
    simp only [List.foldlM_nil] at h
    cases h
    exact hacc e he
  | relConf :: rels, acc, acc2, h, hid, hacc, e, he => by
    rw [List.foldlM_cons] at h
    match hs : releaseStep O repoDir st now acc relConf with
    | none => rw [hs] at h; simp at h
    | some acc1 =>
      rw [hs] at h
      refine releasesFold_no_extra O repoDir st now rname rels acc1 acc2 h
        (fun x hx => hid x (List.mem_cons_of_mem _ hx)) ?_ e he
      intro f hf
      unfold releaseStep at hs
      by_cases hname : relConf.name = rname
      · rw [hid relConf (List.mem_cons_self _ _) hname acc.1] at hs
        dsimp only at hs
        cases hs
        intro hbad
        rcases mem_fsWrite_elim _ _ _ _ hf with hf2 | hf2
        · apply hbad.2
          rw [hf2]
          show repoDir ++ ["dists", relConf.name] ++ ["InRelease"] = _
          rw [hname]
          simp
        · exact hacc f hf2 hbad
      · match hi : releaseIndexPhase O repoDir st relConf acc.1 with
        | none => rw [hi] at hs; simp at hs
        | some fs1 =>
          rw [hi] at hs
          dsimp only at hs
          cases hs
          rcases mem_fsWrite_elim _ _ _ _ hf with hf2 | hf2
          · intro hbad
            apply not_badR_of_other_dists repoDir rname relConf.name ["InRelease"] hname
            rw [hf2] at hbad
            simpa using hbad
          · rw [releaseIndexPhase_eq] at hi
            rcases mem_releaseIndexPhase O repoDir st relConf relConf.components acc.1 fs1
                hi f hf2 with ⟨rest, hrest⟩ | hf3
            · intro hbad
              apply not_badR_of_other_dists repoDir rname relConf.name rest hname
              rw [hrest] at hbad
              exact hbad
            · exact hacc f hf3

theorem buildRepository_elim (O : Oracles) (repoDir : FsPath) (conf : Config)
    (now : Nat) (fs0 : FS) (res : BuildResult)
    (h : buildRepository O repoDir conf now fs0 = some res) :
    ∃ st acc, poolPhase O repoDir conf fs0 = some st ∧
      conf.releases.foldlM (releaseStep O repoDir st now) (st.fs, []) = some acc ∧
      res.fs = fsWrite acc.1 (repoDir ++ ["signing_key.asc"]) O.pubKey ∧
      res.buckets = st.buckets ∧ res.archs = st.archs ∧ res.poolMap = st.poolMap ∧
      res.copies = st.copies ∧ res.releases = acc.2 := by
  unfold buildRepository at h
  match hp : poolPhase O repoDir conf fs0 with
  | none => rw [hp] at h; simp at h
  | some st =>
    rw [hp] at h
    dsimp only at h
    match hf : conf.releases.foldlM (releaseStep O repoDir st now) (st.fs, []) with
    | none => rw [hf] at h; simp at h
    | some acc =>
      rw [hf] at h
      cases h
      exact ⟨st, acc, rfl, hf, rfl, rfl, rfl, rfl, rfl, rfl⟩

end Aptify

namespace Aptify

theorem refsOfConfig_nil (conf : Config)
    (h : ∀ r ∈ conf.releases, ∀ c ∈ r.components, c.packages = []) :
    refsOfConfig conf = [] := by
  rw [List.eq_nil_iff_forall_not_mem]
  rintro ⟨r, c, p⟩ hx
  obtain ⟨x, hxmem, _, cc, hccmem, _, hp⟩ := mem_refsOfConfig conf r c p hx
  rw [h x hxmem cc hccmem] at hp
  simp at hp

theorem releasesFold_total_no_archs (O : Oracles) (repoDir : FsPath) (st : PoolState)
    (now : Nat) (ha : st.archs = []) :
    ∀ (rels : List ReleaseConfig) (acc : FS × List (String × Release)),
      ∃ acc2, rels.foldlM (releaseStep O repoDir st now) acc = some acc2
  | [], acc => ⟨acc, by simp⟩
  | relConf :: rels, acc => by
    have hid : releaseIndexPhase O repoDir st relConf acc.1 = some acc.1 :=
      releaseIndexPhase_no_archs O repoDir st relConf
        (fun comp _ => by rw [ha]; rfl) acc.1
    obtain ⟨acc2, h2⟩ := releasesFold_total_no_archs O repoDir st now ha rels
      ((writeReleaseFS O repoDir st relConf now acc.1).2,
        acc.2 ++ [(relConf.name, (writeReleaseFS O repoDir st relConf now acc.1).1)])
    refine ⟨acc2, ?_⟩
    rw [List.foldlM_cons]
    show (releaseStep O repoDir st now acc relConf).bind _ = some acc2
    unfold releaseStep
    rw [hid]
    exact h2

theorem buildRepository_total_empty (O : Oracles) (repoDir : FsPath) (conf : Config)
    (now : Nat) (fs0 : FS)
    (h : ∀ r ∈ conf.releases, ∀ c ∈ r.components, c.packages = []) :
    ∃ res, buildRepository O repoDir conf now fs0 = some res := by
  have hpool : poolPhase O repoDir conf fs0 = some (emptyPool fs0) := by
    unfold poolPhase
    rw [refsOfConfig_nil conf h]
    rfl
  obtain ⟨acc2, hacc⟩ := releasesFold_total_no_archs O repoDir (emptyPool fs0) now rfl
    conf.releases ((emptyPool fs0).fs, [])
  have hres : buildRepository O repoDir conf now fs0 =
      some { fs := fsWrite acc2.1 (repoDir ++ ["signing_key.asc"]) O.pubKey,
             buckets := (emptyPool fs0).buckets, archs := (emptyPool fs0).archs,
             poolMap := (emptyPool fs0).poolMap, copies := (emptyPool fs0).copies,
             releases := acc2.2 } := by
    unfold buildRepository
    rw [hpool]
    dsimp only
    rw [hacc]
  exact ⟨_, hres⟩

/-- A release with one component and no packages. -/
def c6rel : ReleaseConfig :=
  { name := "empty", version := "1", origin := "o", label := "l",
    suite := "s", description := "d",
    components := [{ name := "main", packages := [] }] }

/-- A configuration with one release, one component and no packages. -/
def c6conf : Config := { releases := [c6rel] }

/-- Counterexample to C6 as stated: for a release whose components
reference zero packages the build succeeds, but the final tree holds
exactly the signed `InRelease` and the exported signing key — no `Packages`
index and no `Contents` index exist at all (the claim asserts a valid
empty `Packages` and `Contents` are produced). -/
theorem c6_zero_packages_counterexample :
    (buildRepository sampleOracles ["out"] c6conf 0 []).map
        (fun res => res.fs.map (fun e => e.1)) =
      some [["out", "dists", "empty", "InRelease"], ["out", "signing_key.asc"]] := by decide

/-- C6 as amended: a configuration all of whose releases reference zero
packages always builds; and in any completed build on a fresh output
directory with distinct, slash-free release and component names, a release
whose components reference zero packages receives a signed `InRelease` and
nothing else below `dists/<release>` — in particular no `Packages` and no
`Contents` index for it. -/
theorem c6_zero_packages_amended :
    (∀ (O : Oracles) (repoDir : FsPath) (conf : Config) (now : Nat) (fs0 : FS),
      (∀ r ∈ conf.releases, ∀ c ∈ r.components, c.packages = []) →
      ∃ res, buildRepository O repoDir conf now fs0 = some res) ∧
    (∀ (O : Oracles) (repoDir : FsPath) (conf : Config) (now : Nat) (res : BuildResult)
        (r : ReleaseConfig),
      buildRepository O repoDir conf now [] = some res →
      r ∈ conf.releases →
      (∀ c ∈ r.components, c.packages = []) →
      (conf.releases.map (fun x => x.name)).Nodup →
      (∀ x ∈ conf.releases, noSlash x.name) →
      (∃ b, fsLookup res.fs (repoDir ++ ["dists", r.name, "InRelease"]) = some b) ∧
      (∀ e ∈ res.fs, underDir (repoDir ++ ["dists", r.name]) e.1 = true →
        e.1 = repoDir ++ ["dists", r.name, "InRelease"])) := by
  refine ⟨buildRepository_total_empty, ?_⟩
  intro O repoDir conf now res r hb hr hempty hnodup hslash
  obtain ⟨st, acc, hpool, hfold, hfs, _, _, _, _, _⟩ :=
    buildRepository_elim O repoDir conf now [] res hb
  have hinv := poolPhase_inv O repoDir conf [] st hpool
  have harch : ∀ comp ∈ r.components,
      lookupA st.archs (r.name ++ "/" ++ comp.name) = none := by
    intro comp hcomp
    match hl : lookupA st.archs (r.name ++ "/" ++ comp.name) with
    | none => rfl
    | some v =>
      exfalso
      obtain ⟨r2, c2, p2, hmem, hkey⟩ := hinv.archs_ok _ _ hl
      obtain ⟨x, hxmem, hxname, cc, hccmem, hccname, hp2⟩ :=
        mem_refsOfConfig conf r2 c2 p2 hmem
      rw [← hxname, ← hccname] at hkey
      obtain ⟨hn, _⟩ := rc_key_inj r.name comp.name x.name cc.name
        (hslash r hr) (hslash x hxmem) hkey
      have hxr : x = r :=
        List.inj_on_of_nodup_map hnodup hxmem hr hn.symm
      rw [hxr] at hccmem
      rw [hempty cc hccmem] at hp2
      simp at hp2
  have hid : ∀ x ∈ conf.releases, x.name = r.name →
      ∀ fs, releaseIndexPhase O repoDir st x fs = some fs := by
    intro x hx hxname fs
    have hxr : x = r := List.inj_on_of_nodup_map hnodup hx hr hxname
    subst hxr
    exact releaseIndexPhase_no_archs O repoDir st x
      (fun comp hcomp => harch comp hcomp) fs
  have hinit : ∀ e ∈ st.fs, ¬ badR repoDir r.name e.1 := by
    intro e he hbad
    rcases hinv.fs_ok e he with he2 | ⟨rest, hrest⟩
    · simp at he2
    · rw [hrest] at hbad
      have hb1 := hbad.1
      rw [underDir_dists_pool repoDir r.name rest] at hb1
      simp at hb1
  have hnoextra := releasesFold_no_extra O repoDir st now r.name conf.releases
    (st.fs, []) acc hfold hid hinit
  constructor
  · have hpresent := releasesFold_inrelease O repoDir st now conf.releases
      (st.fs, []) acc hfold r hr
    rw [hfs]
    exact fsLookup_isSome_fsWrite _ _ _ _ hpresent
  · intro e he hunder
    rw [hfs] at he
    rcases mem_fsWrite_elim _ _ _ _ he with he2 | he2
    · exfalso
      have : underDir (repoDir ++ ["dists", r.name]) (repoDir ++ ["signing_key.asc"]) =
          false := by
        apply underDir_short
        simp [List.length_append]
      rw [he2] at hunder
      simp only at hunder
      rw [this] at hunder
      exact absurd hunder (by simp)
    · by_contra hne
      exact hnoextra e he2 ⟨hunder, hne⟩

/-- Witness for the amended C6 at the concrete zero-package
configuration. -/
theorem c6_zero_packages_amended_witness :
    ∃ res, buildRepository sampleOracles ["out"] c6conf 0 [] = some res ∧
      (∃ b, fsLookup res.fs ["out", "dists", "empty", "InRelease"] = some b) := by
  match hres : buildRepository sampleOracles ["out"] c6conf 0 [] with
  | none => exact absurd hres (by decide)
  | some res =>
    have h := (c6_zero_packages_amended.2 sampleOracles ["out"] c6conf 0 res c6rel
      hres (by decide) (by decide) (by decide) (by decide)).1
    exact ⟨res, rfl, by simpa [c6rel] using h⟩

end Aptify

namespace Aptify

theorem releasesFold_rels (O : Oracles) (repoDir : FsPath) (st : PoolState) (now : Nat) :
    ∀ (rels : List ReleaseConfig) (acc acc2 : FS × List (String × Release)),
      rels.foldlM (releaseStep O repoDir st now) acc = some acc2 →
      ∀ nr ∈ acc2.2, nr ∈ acc.2 ∨
        ∃ x ∈ rels, ∃ fs1, nr = (x.name, (writeReleaseFS O repoDir st x now fs1).1)
  | [], acc, acc2, h, nr, hnr => by
    simp only [List.foldlM_nil] at h
    cases h
    exact Or.inl hnr
  | relConf :: rels, acc, acc2, h, nr, hnr => by
    rw [List.foldlM_cons] at h
    match hs : releaseStep O repoDir st now acc relConf with
    | none => rw [hs] at h; simp at h
    | some acc1 =>
      rw [hs] at h
      rcases releasesFold_rels O repoDir st now rels acc1 acc2 h nr hnr with h2 | h2
      · unfold releaseStep at hs
        match hi : releaseIndexPhase O repoDir st relConf acc.1 with
        | none => rw [hi] at hs; simp at hs
        | some fs1 =>
          rw [hi] at hs
          dsimp only at hs
          cases hs
          rcases List.mem_append.mp h2 with h3 | h3
          · exact Or.inl h3
          · rcases List.mem_singleton.mp h3 with h4
            exact Or.inr ⟨relConf, List.mem_cons_self _ _, fs1, h4⟩
      · obtain ⟨x, hx, fs1, hnr2⟩ := h2
        exact Or.inr ⟨x, List.mem_cons_of_mem _ hx, fs1, hnr2⟩

theorem slash_mem_key (a b : String) : '/' ∈ (a ++ "/" ++ b).data := by
  simp [String.data_append]

/-- The configuration of the C5 failing input: one release `bookworm` with
one component `main` holding one amd64 package. -/
def c5conf : Config :=
  { releases := [{ name := "bookworm", version := "1", origin := "o", label := "l",
                   suite := "s", description := "d",
                   components := [{ name := "main", packages := ["a.deb"] }] }] }

/-- C5 (refuting evaluation, and the general shape of the defect): the
architecture map of the build of `c5conf` records `amd64` under the key
`bookworm/main`, yet the signed release manifest's `Architectures` list is
empty, because `buildRepository` reads `archsForReleaseComponent` under the
bare release name while the map is keyed by `release/component`; in
general, every release with a slash-free name gets an empty
`Architectures` list no matter which architectures were observed. -/
theorem c5_architectures_bug :
    ((buildRepository sampleOracles ["out"] c5conf 0 []).map
        (fun res => (res.archs, res.releases.map (fun nr => (nr.1, nr.2.Architectures)))) =
      some ([("bookworm/main", ["amd64"])], [("bookworm", [])])) ∧
    (∀ (O : Oracles) (repoDir : FsPath) (conf : Config) (now : Nat) (fs0 : FS)
        (res : BuildResult),
      buildRepository O repoDir conf now fs0 = some res →
      (∀ x ∈ conf.releases, noSlash x.name) →
      ∀ nr ∈ res.releases, nr.2.Architectures = []) := by
  constructor
  · decide
  · intro O repoDir conf now fs0 res hb hslash nr hnr
    obtain ⟨st, acc, hpool, hfold, _, _, _, _, _, hrels⟩ :=
      buildRepository_elim O repoDir conf now fs0 res hb
    have hinv := poolPhase_inv O repoDir conf fs0 st hpool
    rw [hrels] at hnr
    rcases releasesFold_rels O repoDir st now conf.releases (st.fs, []) acc hfold
        nr hnr with h2 | ⟨x, hx, fs1, hnr2⟩
    · simp at h2
    · rw [hnr2]
      show ((writeReleaseFS O repoDir st x now fs1).1).Architectures = []
      unfold writeReleaseFS
      dsimp only
      match hl : lookupA st.archs x.name with
      | none => rfl
      | some v =>
        exfalso
        obtain ⟨r2, c2, p2, _, hkey⟩ := hinv.archs_ok _ _ hl
        have : '/' ∈ x.name.data := by
          rw [hkey]
          exact slash_mem_key r2 c2
        exact hslash x hx this

/-- Witness for C5's general conjunct at the failing input. -/
theorem c5_architectures_bug_witness :
    ∃ res, buildRepository sampleOracles ["out"] c5conf 0 [] = some res ∧
      ∀ nr ∈ res.releases, nr.2.Architectures = [] := by
  match hres : buildRepository sampleOracles ["out"] c5conf 0 [] with
  | none => exact absurd hres (by decide)
  | some res =>
    exact ⟨res, rfl, c5_architectures_bug.2 sampleOracles ["out"] c5conf 0 [] res hres
      (by decide)⟩

end Aptify

namespace Aptify

theorem directoryHashes_eq_filter_map (O : Oracles) (dir : FsPath) :
    ∀ fs : FS, directoryHashes O dir fs =
      (fs.filter (fun e => underDir dir e.1)).map
        (fun e => { Filename := e.1.drop dir.length, Hash := O.hash e.2,
                    Size := e.2.length : FileHash })
  | [] => rfl
  | e :: fs => by
    show List.filterMap _ (e :: fs) = _
    rw [List.filterMap_cons, List.filter_cons]
    by_cases h : underDir dir e.1 = true
    · rw [if_pos h, if_pos h, List.map_cons]
      dsimp only
      exact congrArg (List.cons _) (directoryHashes_eq_filter_map O dir fs)
    · rw [if_neg h, if_neg h]
      exact directoryHashes_eq_filter_map O dir fs

theorem eq_append_drop_of_underDir (dir p : FsPath) (h : underDir dir p = true) :
    p = dir ++ p.drop dir.length := by
  unfold underDir at h
  rw [decide_eq_true_iff] at h
  conv_lhs => rw [← List.take_append_drop dir.length p]
  rw [h.1]

/-- C1: the SHA-256 list embedded in the signed release manifest carries one
(relative path, digest, size) entry for exactly the regular files present
under `dists/<release>` in the filesystem state the manifest is computed
from — in `buildRepository` that state is the one right after all
`Packages`, `Packages.xz` and `Contents` files of the release have been
written (see `releaseStep`) — and, provided the output tree holds no stale
`InRelease` (a fresh output directory), no entry for the `InRelease` file
being produced; `InRelease` itself is written only afterwards. -/
theorem c1_release_manifest_hashes (O : Oracles) (repoDir : FsPath) (st : PoolState)
    (relConf : ReleaseConfig) (now : Nat) (fs1 : FS)
    (hfresh : fsLookup fs1 (repoDir ++ ["dists", relConf.name, "InRelease"]) = none) :
    ((writeReleaseFS O repoDir st relConf now fs1).1).SHA256 =
      (fs1.filter (fun e => underDir (repoDir ++ ["dists", relConf.name]) e.1)).map
        (fun e => { Filename := e.1.drop (repoDir ++ ["dists", relConf.name]).length,
                    Hash := O.hash e.2, Size := e.2.length }) ∧
    (∀ fh ∈ ((writeReleaseFS O repoDir st relConf now fs1).1).SHA256,
      fh.Filename ≠ ["InRelease"]) ∧
    (writeReleaseFS O repoDir st relConf now fs1).2 =
      fsWrite fs1 (repoDir ++ ["dists", relConf.name, "InRelease"])
        (O.encodeRelease (writeReleaseFS O repoDir st relConf now fs1).1) := by
  have hsha : ((writeReleaseFS O repoDir st relConf now fs1).1).SHA256 =
      directoryHashes O (repoDir ++ ["dists", relConf.name]) fs1 := rfl
  refine ⟨?_, ?_, ?_⟩
  · rw [hsha]
    exact directoryHashes_eq_filter_map O _ fs1
  · intro fh hfh
    rw [hsha, directoryHashes_eq_filter_map O _ fs1] at hfh
    rw [List.mem_map] at hfh
    obtain ⟨e, he, hfh2⟩ := hfh
    obtain ⟨ep, eb⟩ := e
    rw [List.mem_filter] at he
    intro hname
    have hdrop : ep.drop (repoDir ++ ["dists", relConf.name]).length = ["InRelease"] := by
      rw [← hname, ← hfh2]
    have hp : ep = repoDir ++ ["dists", relConf.name, "InRelease"] := by
      have h3 := eq_append_drop_of_underDir _ _ he.2
      dsimp only at h3
      rw [hdrop] at h3
      rw [h3]
      simp
    obtain ⟨x, hx⟩ := fsLookup_isSome_of_mem fs1 ep eb he.1
    rw [hp, hfresh] at hx
    simp at hx
  · show (fsWrite fs1 (repoDir ++ ["dists", relConf.name] ++ ["InRelease"]) _) = _
    have heq : repoDir ++ ["dists", relConf.name] ++ ["InRelease"] =
        repoDir ++ ["dists", relConf.name, "InRelease"] := by simp
    rw [heq]
    rfl

end Aptify

namespace Aptify

/-- Witness for C1: one Packages file under the release directory yields
exactly its hash entry and no `InRelease` entry. -/
theorem c1_release_manifest_hashes_witness :
    ((writeReleaseFS sampleOracles ["out"] (emptyPool []) c6rel 0
        [(["out", "dists", "empty", "main", "binary-amd64", "Packages"], "PKGDATA")]).1).SHA256 =
      [{ Filename := ["main", "binary-amd64", "Packages"], Hash := "H(PKGDATA)", Size := 7 }] ∧
    ∀ fh ∈ ((writeReleaseFS sampleOracles ["out"] (emptyPool []) c6rel 0
        [(["out", "dists", "empty", "main", "binary-amd64", "Packages"], "PKGDATA")]).1).SHA256,
      fh.Filename ≠ ["InRelease"] := by
  have h := c1_release_manifest_hashes sampleOracles ["out"] (emptyPool []) c6rel 0
    [(["out", "dists", "empty", "main", "binary-amd64", "Packages"], "PKGDATA")] (by decide)
  refine ⟨?_, h.2.1⟩
  rw [h.1]
  decide

/-! ## The Contents index (C7) -/

theorem lookupA_isSome_iff_mem_keys {α : Type} :
    ∀ (m : List (String × α)) (q : String),
      (lookupA m q).isSome ↔ q ∈ m.map (fun e => e.1)
  | [], q => by simp [lookupA]
  | e :: m, q => by
    by_cases h : e.1 = q
    · simp [lookupA, h]
    · simp only [lookupA, if_neg h, List.map_cons, List.mem_cons]
      rw [lookupA_isSome_iff_mem_keys m q]
      constructor
      · exact Or.inr
      · rintro (hq | hq)
        · exact absurd hq.symm h
        · exact hq

theorem mem_keys_updateA {α : Type} :
    ∀ (m : List (String × α)) (k : String) (f : Option α → α) (q : String),
      q ∈ (updateA m k f).map (fun e => e.1) ↔ q = k ∨ q ∈ m.map (fun e => e.1)
  | [], k, f, q => by simp [updateA]
  | e :: m, k, f, q => by
    by_cases h : e.1 = k
    · simp only [updateA, if_pos h, List.map_cons, List.mem_cons]
      rw [h]
      tauto
    · simp only [updateA, if_neg h, List.map_cons, List.mem_cons,
        mem_keys_updateA m k f q]
      tauto

theorem keys_nodup_updateA {α : Type} :
    ∀ (m : List (String × α)) (k : String) (f : Option α → α),
      (m.map (fun e => e.1)).Nodup → ((updateA m k f).map (fun e => e.1)).Nodup
  | [], k, f, _ => by simp [updateA]
  | e :: m, k, f, h => by
    rw [List.map_cons, List.nodup_cons] at h
    by_cases he : e.1 = k
    · simp only [updateA, if_pos he, List.map_cons, List.nodup_cons]
      exact ⟨by rw [← he]; exact h.1, h.2⟩
    · simp only [updateA, if_neg he, List.map_cons, List.nodup_cons]
      refine ⟨?_, keys_nodup_updateA m k f h.2⟩
      rw [mem_keys_updateA m k f e.1]
      rintro (hq | hq)
      · exact he hq
      · exact h.1 hq

end Aptify

namespace Aptify

/-- The per-occurrence contribution appended under each installed path by
one package: its qualified name, once per occurrence of the path. -/
def ownersAfter (O : Oracles) (repoDir : FsPath) (fs : FS) (pkgs : List Package)
    (p : String) : List String :=
  pkgs.flatMap (fun pkg =>
    match fsLookup fs (repoDir ++ pkg.Filename) with
    | none => []
    | some b =>
      List.replicate (((O.contentsOf b).filter (fun x => decide (x = p))).length)
        (contentsQualifiedName pkg))

theorem mem_iff_filter_ne_nil (paths : List String) (q : String) :
    q ∈ paths ↔ paths.filter (fun x => decide (x = q)) ≠ [] := by
  rw [Ne, List.filter_eq_nil]
  simp

theorem lookupA_foldl_push (qn : String) :
    ∀ (paths : List String) (m : List (String × List String)) (q : String),
      lookupA (paths.foldl (fun acc x => updateA acc x (fun old =>
          match old with | none => [qn] | some l => l ++ [qn])) m) q =
        (if q ∈ paths then
          some ((lookupA m q).getD [] ++
            List.replicate ((paths.filter (fun x => decide (x = q))).length) qn)
        else lookupA m q)
  | [], m, q => by simp
  | x :: paths, m, q => by
    rw [List.foldl_cons, lookupA_foldl_push qn paths _ q]
    by_cases hxq : x = q
    · subst hxq
      have hup : lookupA (updateA m x (fun old =>
          match old with | none => [qn] | some l => l ++ [qn])) x =
          some ((lookupA m x).getD [] ++ [qn]) := by
        rw [lookupA_updateA_self]
        match lookupA m x with
        | none => rfl
        | some l => rfl
      by_cases hm : x ∈ paths
      · rw [if_pos hm, if_pos (List.mem_cons_self x paths), hup]
        simp [List.filter_cons, List.replicate_succ, List.append_assoc]
      · rw [if_neg hm, if_pos (List.mem_cons_self x paths), hup]
        have hcount : ((x :: paths).filter (fun y => decide (y = x))).length = 1 := by
          have : paths.filter (fun y => decide (y = x)) = [] := by
            by_contra hc
            exact hm ((mem_iff_filter_ne_nil paths x).mpr hc)
          simp [List.filter_cons, this]
        rw [hcount]
        rfl
    · have hne : ¬ q = x := fun hh => hxq hh.symm
      have hother : lookupA (updateA m x (fun old =>
          match old with | none => [qn] | some l => l ++ [qn])) q = lookupA m q :=
        lookupA_updateA_other m x q _ hne
      have hfilter : (x :: paths).filter (fun y => decide (y = q)) =
          paths.filter (fun y => decide (y = q)) := by
        simp [List.filter_cons, hxq]
      by_cases hm : q ∈ paths
      · rw [hother, hfilter, if_pos hm, if_pos (List.mem_cons_of_mem x hm)]
      · rw [hother, hfilter, if_neg hm, if_neg (by simp [List.mem_cons, hne, hm])]

end Aptify

namespace Aptify

theorem collectContents_total (O : Oracles) (repoDir : FsPath) (fs : FS) :
    ∀ (pkgs : List Package) (m0 : List (String × List String)),
      (∀ pkg ∈ pkgs, ∃ b, fsLookup fs (repoDir ++ pkg.Filename) = some b) →
      ∃ m, collectContents O repoDir fs pkgs m0 = some m
  | [], m0, _ => ⟨m0, rfl⟩
  | pkg :: pkgs, m0, h => by
    obtain ⟨b, hb⟩ := h pkg (List.mem_cons_self _ _)
    unfold collectContents
    rw [hb]
    exact collectContents_total O repoDir fs pkgs _
      (fun q hq => h q (List.mem_cons_of_mem _ hq))

theorem collectContents_lookup (O : Oracles) (repoDir : FsPath) (fs : FS) :
    ∀ (pkgs : List Package) (m0 m : List (String × List String)) (q : String),
      collectContents O repoDir fs pkgs m0 = some m →
      lookupA m q =
        (if ownersAfter O repoDir fs pkgs q = [] then lookupA m0 q
         else some ((lookupA m0 q).getD [] ++ ownersAfter O repoDir fs pkgs q))
  | [], m0, m, q, h => by
    simp only [collectContents] at h
    cases h
    simp [ownersAfter]
  | pkg :: pkgs, m0, m, q, h => by
    unfold collectContents at h
    match hb : fsLookup fs (repoDir ++ pkg.Filename) with
    | none => rw [hb] at h; simp at h
    | some b =>
      rw [hb] at h
      have hown : ownersAfter O repoDir fs (pkg :: pkgs) q =
          List.replicate (((O.contentsOf b).filter (fun x => decide (x = q))).length)
            (contentsQualifiedName pkg) ++ ownersAfter O repoDir fs pkgs q := by
        unfold ownersAfter
        rw [List.flatMap_cons, hb]
      have hrec := collectContents_lookup O repoDir fs pkgs _ m q h
      rw [lookupA_foldl_push (contentsQualifiedName pkg) (O.contentsOf b) m0 q] at hrec
      rw [hown]
      by_cases hq : q ∈ O.contentsOf b
      · rw [if_pos hq] at hrec
        have hrep : List.replicate
            (((O.contentsOf b).filter (fun x => decide (x = q))).length)
            (contentsQualifiedName pkg) ≠ [] := by
          have hne := (mem_iff_filter_ne_nil (O.contentsOf b) q).mp hq
          intro hc
          apply hne
          have hlen := congrArg List.length hc
          rw [List.length_replicate] at hlen
          exact List.length_eq_zero.mp hlen
        by_cases ho : ownersAfter O repoDir fs pkgs q = []
        · rw [ho] at hrec ⊢
          rw [if_pos rfl] at hrec
          rw [if_neg (by simp [hrep])]
          rw [hrec]
          simp
        · rw [if_neg ho] at hrec
          rw [if_neg (by intro hc; exact ho (List.append_eq_nil.mp hc).2)]
          rw [hrec]
          simp [List.append_assoc]
      · rw [if_neg hq] at hrec
        have hrep : List.replicate
            (((O.contentsOf b).filter (fun x => decide (x = q))).length)
            (contentsQualifiedName pkg) = [] := by
          have : (O.contentsOf b).filter (fun x => decide (x = q)) = [] := by
            by_contra hc
            exact hq ((mem_iff_filter_ne_nil (O.contentsOf b) q).mpr hc)
          rw [this]
          rfl
        rw [hrep, List.nil_append]
        exact hrec

theorem collectContents_keys_nodup (O : Oracles) (repoDir : FsPath) (fs : FS) :
    ∀ (pkgs : List Package) (m0 m : List (String × List String)),
      collectContents O repoDir fs pkgs m0 = some m →
      (m0.map (fun e => e.1)).Nodup → (m.map (fun e => e.1)).Nodup
  | [], m0, m, h, h0 => by
    simp only [collectContents] at h
    cases h
    exact h0
  | pkg :: pkgs, m0, m, h, h0 => by
    unfold collectContents at h
    match hb : fsLookup fs (repoDir ++ pkg.Filename) with
    | none => rw [hb] at h; simp at h
    | some b =>
      rw [hb] at h
      refine collectContents_keys_nodup O repoDir fs pkgs _ m h ?_
      have : ∀ (paths : List String) (acc : List (String × List String)),
          (acc.map (fun e => e.1)).Nodup →
          ((paths.foldl (fun acc x => updateA acc x (fun old =>
            match old with
            | none => [contentsQualifiedName pkg]
            | some l => l ++ [contentsQualifiedName pkg])) acc).map (fun e => e.1)).Nodup := by
        intro paths
        induction paths with
        | nil => intro acc hacc; exact hacc
        | cons x xs ih =>
          intro acc hacc
          rw [List.foldl_cons]
          exact ih _ (keys_nodup_updateA acc x _ hacc)
      exact this (O.contentsOf b) m0 h0

end Aptify

namespace Aptify

theorem ownersAfter_ne_nil_iff (O : Oracles) (repoDir : FsPath) (fs : FS) :
    ∀ (pkgs : List Package) (p : String),
      ownersAfter O repoDir fs pkgs p ≠ [] ↔
        ∃ pkg ∈ pkgs, ∃ b, fsLookup fs (repoDir ++ pkg.Filename) = some b ∧
          p ∈ O.contentsOf b
  | [], p => by simp [ownersAfter]
  | pkg :: pkgs, p => by
    have hcons : ownersAfter O repoDir fs (pkg :: pkgs) p =
        (match fsLookup fs (repoDir ++ pkg.Filename) with
         | none => []
         | some b =>
           List.replicate (((O.contentsOf b).filter (fun x => decide (x = p))).length)
             (contentsQualifiedName pkg)) ++ ownersAfter O repoDir fs pkgs p := by
      unfold ownersAfter
      rw [List.flatMap_cons]
    rw [hcons]
    match hb : fsLookup fs (repoDir ++ pkg.Filename) with
    | none =>
      dsimp only
      rw [List.nil_append]
      constructor
      · intro h
        obtain ⟨pkg2, hmem, b2, hb2, hp2⟩ := (ownersAfter_ne_nil_iff O repoDir fs pkgs p).mp h
        exact ⟨pkg2, List.mem_cons_of_mem _ hmem, b2, hb2, hp2⟩
      · rintro ⟨pkg2, hmem, b2, hb2, hp2⟩
        rcases List.mem_cons.mp hmem with hm | hm
        · subst hm
          rw [hb] at hb2
          simp at hb2
        · exact (ownersAfter_ne_nil_iff O repoDir fs pkgs p).mpr ⟨pkg2, hm, b2, hb2, hp2⟩
    | some b =>
      dsimp only
      constructor
      · intro h
        by_cases ho : ownersAfter O repoDir fs pkgs p = []
        · have hrep : List.replicate (((O.contentsOf b).filter
              (fun x => decide (x = p))).length) (contentsQualifiedName pkg) ≠ [] := by
            intro hc
            exact h (by rw [hc, ho, List.nil_append])
          have hp : p ∈ O.contentsOf b := by
            rw [mem_iff_filter_ne_nil]
            intro hc
            exact hrep (by rw [hc]; rfl)
          exact ⟨pkg, List.mem_cons_self _ _, b, hb, hp⟩
        · obtain ⟨pkg2, hmem, b2, hb2, hp2⟩ :=
            (ownersAfter_ne_nil_iff O repoDir fs pkgs p).mp ho
          exact ⟨pkg2, List.mem_cons_of_mem _ hmem, b2, hb2, hp2⟩
      · rintro ⟨pkg2, hmem, b2, hb2, hp2⟩ hc
        obtain ⟨h1, h2⟩ := List.append_eq_nil.mp hc
        rcases List.mem_cons.mp hmem with hm | hm
        · subst hm
          rw [hb] at hb2
          injection hb2 with hb2
          subst hb2
          have hn := congrArg List.length h1
          rw [List.length_replicate] at hn
          have hfil : (O.contentsOf b).filter (fun x => decide (x = p)) = [] :=
            List.length_eq_zero.mp (by simpa using hn)
          exact (mem_iff_filter_ne_nil _ _).mp hp2 hfil
        · exact (ownersAfter_ne_nil_iff O repoDir fs pkgs p).mpr ⟨pkg2, hm, b2, hb2, hp2⟩ h2

end Aptify

namespace Aptify

/-- C7: for every (release, component, architecture), the Contents index the
build writes has exactly one line per distinct installed path among the
architecture-filtered packages, the lines keyed-sorted lexicographically,
each line `<path> <comma-joined-package-names>`, where a package
contributes `section/name` when its `Section` is non-empty and the bare
`name` otherwise. -/
theorem c7_contents_index (O : Oracles) (repoDir : FsPath) (fs : FS)
    (bucket : List Package) (a : String)
    (hs : ∀ pkg ∈ packagesForArch bucket a,
      ∃ b, fsLookup fs (repoDir ++ pkg.Filename) = some b) :
    ∃ m, collectContents O repoDir fs (packagesForArch bucket a) [] = some m ∧
      ∃ keys, contentsLines m =
          keys.map (fun p => p ++ " " ++ String.intercalate "," ((lookupA m p).getD [])) ∧
        keys.Nodup ∧ List.Sorted strLe keys ∧
        (∀ p, p ∈ keys ↔
          ∃ pkg ∈ packagesForArch bucket a, ∃ b,
            fsLookup fs (repoDir ++ pkg.Filename) = some b ∧ p ∈ O.contentsOf b) ∧
        (∀ p, p ∈ keys →
          (lookupA m p).getD [] = ownersAfter O repoDir fs (packagesForArch bucket a) p) ∧
        (∀ pkg : Package, contentsQualifiedName pkg =
          if pkg.Section = "" then pkg.Name else pkg.Section ++ "/" ++ pkg.Name) := by
  obtain ⟨m, hm⟩ := collectContents_total O repoDir fs (packagesForArch bucket a) [] hs
  refine ⟨m, hm, List.insertionSort strLe (m.map (fun e : String × List String => e.1)), rfl,
    ?_, ?_, ?_, ?_, fun pkg => rfl⟩
  · rw [List.Perm.nodup_iff (List.perm_insertionSort strLe (m.map (fun e => e.1)))]
    exact collectContents_keys_nodup O repoDir fs (packagesForArch bucket a) [] m hm
      (by simp)
  · haveI : IsTotal String strLe := ⟨fun x y => keyLe_total _ _⟩
    haveI : IsTrans String strLe := ⟨fun x y z => keyLe_trans _ _ _⟩
    exact List.sorted_insertionSort strLe _
  · intro p
    rw [(List.perm_insertionSort strLe (m.map (fun e => e.1))).mem_iff]
    rw [← lookupA_isSome_iff_mem_keys m p]
    rw [collectContents_lookup O repoDir fs (packagesForArch bucket a) [] m p hm]
    rw [← ownersAfter_ne_nil_iff O repoDir fs (packagesForArch bucket a) p]
    by_cases ho : ownersAfter O repoDir fs (packagesForArch bucket a) p = []
    · rw [if_pos ho]
      simp [lookupA, ho]
    · rw [if_neg ho]
      simp [ho]
  · intro p hp
    rw [(List.perm_insertionSort strLe (m.map (fun e => e.1))).mem_iff] at hp
    rw [← lookupA_isSome_iff_mem_keys m p] at hp
    rw [collectContents_lookup O repoDir fs (packagesForArch bucket a) [] m p hm] at hp ⊢
    by_cases ho : ownersAfter O repoDir fs (packagesForArch bucket a) p = []
    · rw [if_pos ho] at hp
      simp [lookupA] at hp
    · rw [if_neg ho]
      simp [lookupA]

/-- The package and filesystem of the C7 witness: one amd64 package whose
pool file is present. -/
def c7pkg : Package :=
  { Name := "foo", Version := "1.0", Architecture := "amd64", Source := "",
    Section := "", Filename := ["pool", "main", "f", "foo", "foo_1.0_amd64.deb"],
    Size := 3, SHA256 := "" }

def c7fs : FS := [(["out", "pool", "main", "f", "foo", "foo_1.0_amd64.deb"], "DEB")]

/-- Witness for C7 at a one-package bucket. -/
theorem c7_contents_index_witness :
    ∃ m, collectContents sampleOracles ["out"] c7fs (packagesForArch [c7pkg] "amd64") [] =
        some m ∧ contentsLines m = ["usr/bin/foo foo"] := by
  have hlist : packagesForArch [c7pkg] "amd64" = [c7pkg] := by decide
  obtain ⟨m, hm, _⟩ := c7_contents_index sampleOracles ["out"] c7fs [c7pkg] "amd64"
    (by
      intro pkg hpkg
      rw [hlist] at hpkg
      rcases List.mem_singleton.mp hpkg with h
      subst h
      exact ⟨"DEB", by decide⟩)
  refine ⟨m, hm, ?_⟩
  have h0 : collectContents sampleOracles ["out"] c7fs (packagesForArch [c7pkg] "amd64") [] =
      some [("usr/bin/foo", ["foo"])] := by decide
  rw [h0] at hm
  injection hm with hm
  rw [← hm]
  decide

end Aptify

namespace Aptify

/-! ## Reproducibility of the build (C9)

Two runs of the same build at different times produce filesystems that
agree everywhere except at the `InRelease` files (whose signed bodies
embed the `Date`).  `FSAgree S` relates two filesystems with the same
entry sequence whose contents agree outside the path set `S`. -/

def FSAgree (S : List FsPath) (fs1 fs2 : FS) : Prop :=
  List.Forall₂ (fun e1 e2 => e1.1 = e2.1 ∧ (e1.1 ∉ S → e1.2 = e2.2)) fs1 fs2

theorem fsAgree_refl (S : List FsPath) (fs : FS) : FSAgree S fs fs := by
  rw [FSAgree, List.forall₂_same]
  exact fun e _ => ⟨rfl, fun _ => rfl⟩

theorem fsAgree_mono (S S2 : List FsPath) (fs1 fs2 : FS) (hS : ∀ p ∈ S, p ∈ S2)
    (h : FSAgree S fs1 fs2) : FSAgree S2 fs1 fs2 := by
  refine List.Forall₂.imp ?_ h
  rintro e1 e2 ⟨h1, h2⟩
  exact ⟨h1, fun hn => h2 (fun hc => hn (hS _ hc))⟩

theorem fsAgree_write (S : List FsPath) :
    ∀ (fs1 fs2 : FS) (p : FsPath) (b : Bytes), FSAgree S fs1 fs2 →
      FSAgree S (fsWrite fs1 p b) (fsWrite fs2 p b)
  | [], [], p, b, _ => by
    simp only [fsWrite]
    exact List.Forall₂.cons ⟨rfl, fun _ => rfl⟩ List.Forall₂.nil
  | (k1, v1) :: fs1, (k2, v2) :: fs2, p, b, h => by
    rcases h with _ | ⟨⟨hk, hv⟩, hrest⟩
    dsimp only at hk hv
    by_cases hp : k1 = p
    · have hp2 : k2 = p := by rw [← hk]; exact hp
      simp only [fsWrite, if_pos hp, if_pos hp2]
      exact List.Forall₂.cons ⟨rfl, fun _ => rfl⟩ hrest
    · have hp2 : ¬ k2 = p := by rw [← hk]; exact hp
      simp only [fsWrite, if_neg hp, if_neg hp2]
      exact List.Forall₂.cons ⟨hk, hv⟩ (fsAgree_write S fs1 fs2 p b hrest)

theorem fsAgree_write_differing (S : List FsPath) :
    ∀ (fs1 fs2 : FS) (p : FsPath) (b1 b2 : Bytes), FSAgree S fs1 fs2 → p ∈ S →
      FSAgree S (fsWrite fs1 p b1) (fsWrite fs2 p b2)
  | [], [], p, b1, b2, _, hp => by
    simp only [fsWrite]
    exact List.Forall₂.cons ⟨rfl, fun hn => absurd hp hn⟩ List.Forall₂.nil
  | (k1, v1) :: fs1, (k2, v2) :: fs2, p, b1, b2, h, hp => by
    rcases h with _ | ⟨⟨hk, hv⟩, hrest⟩
    dsimp only at hk hv
    by_cases hpe : k1 = p
    · have hp2 : k2 = p := by rw [← hk]; exact hpe
      simp only [fsWrite, if_pos hpe, if_pos hp2]
      exact List.Forall₂.cons ⟨rfl, fun hn => absurd hp hn⟩ hrest
    · have hp2 : ¬ k2 = p := by rw [← hk]; exact hpe
      simp only [fsWrite, if_neg hpe, if_neg hp2]
      exact List.Forall₂.cons ⟨hk, hv⟩ (fsAgree_write_differing S fs1 fs2 p b1 b2 hrest hp)

theorem fsAgree_lookup (S : List FsPath) :
    ∀ (fs1 fs2 : FS) (p : FsPath), FSAgree S fs1 fs2 → p ∉ S →
      fsLookup fs1 p = fsLookup fs2 p
  | [], [], p, _, _ => rfl
  | (k1, v1) :: fs1, (k2, v2) :: fs2, p, h, hp => by
    rcases h with _ | ⟨⟨hk, hv⟩, hrest⟩
    dsimp only at hk hv
    by_cases hpe : k1 = p
    · have hp2 : k2 = p := by rw [← hk]; exact hpe
      simp only [fsLookup, if_pos hpe, if_pos hp2]
      rw [hv (by rw [hpe]; exact hp)]
    · have hp2 : ¬ k2 = p := by rw [← hk]; exact hpe
      simp only [fsLookup, if_neg hpe, if_neg hp2]
      exact fsAgree_lookup S fs1 fs2 p hrest hp

theorem fsAgree_directoryHashes (O : Oracles) (dir : FsPath) (S : List FsPath) :
    ∀ (fs1 fs2 : FS), FSAgree S fs1 fs2 → (∀ q ∈ S, underDir dir q = false) →
      directoryHashes O dir fs1 = directoryHashes O dir fs2
  | [], [], _, _ => rfl
  | (k1, v1) :: fs1, (k2, v2) :: fs2, h, hS => by
    rcases h with _ | ⟨⟨hk, hv⟩, hrest⟩
    dsimp only at hk hv
    show List.filterMap _ ((k1, v1) :: fs1) = List.filterMap _ ((k2, v2) :: fs2)
    rw [List.filterMap_cons, List.filterMap_cons]
    by_cases hu : underDir dir k1 = true
    · have hS1 : k1 ∉ S := by
        intro hc
        rw [hS k1 hc] at hu
        exact absurd hu (by simp)
      have hu2 : underDir dir k2 = true := by rw [← hk]; exact hu
      rw [if_pos hu, if_pos hu2]
      rw [← hk, ← hv hS1]
      exact congrArg (List.cons _) (fsAgree_directoryHashes O dir S fs1 fs2 hrest hS)
    · have hu2 : ¬ underDir dir k2 = true := by rw [← hk]; exact hu
      rw [if_neg hu, if_neg hu2]
      exact fsAgree_directoryHashes O dir S fs1 fs2 hrest hS

end Aptify

namespace Aptify

/-- Relating two `Option` results: both fail, or both succeed relatedly. -/
def OptRel {α β : Type} (r : α → β → Prop) : Option α → Option β → Prop
  | none, none => True
  | some a, some b => r a b
  | _, _ => False

theorem collectContents_agree (O : Oracles) (repoDir : FsPath) (S : List FsPath) :
    ∀ (pkgs : List Package) (fs1 fs2 : FS) (m0 : List (String × List String)),
      FSAgree S fs1 fs2 →
      (∀ pkg ∈ pkgs, repoDir ++ pkg.Filename ∉ S) →
      collectContents O repoDir fs1 pkgs m0 = collectContents O repoDir fs2 pkgs m0
  | [], fs1, fs2, m0, _, _ => rfl
  | pkg :: pkgs, fs1, fs2, m0, h, hpkg => by
    unfold collectContents
    rw [fsAgree_lookup S fs1 fs2 _ h (hpkg pkg (List.mem_cons_self _ _))]
    match fsLookup fs2 (repoDir ++ pkg.Filename) with
    | none => rfl
    | some b =>
      exact collectContents_agree O repoDir S pkgs fs1 fs2 _ h
        (fun q hq => hpkg q (List.mem_cons_of_mem _ hq))

theorem writeContentsFS_agree (O : Oracles) (repoDir componentDir : FsPath)
    (packages : List Package) (a : String) (S : List FsPath) (fs1 fs2 : FS)
    (h : FSAgree S fs1 fs2)
    (hpkg : ∀ pkg ∈ packages, repoDir ++ pkg.Filename ∉ S) :
    OptRel (FSAgree S) (writeContentsFS O repoDir componentDir packages a fs1)
      (writeContentsFS O repoDir componentDir packages a fs2) := by
  unfold writeContentsFS
  rw [collectContents_agree O repoDir S packages fs1 fs2 [] h hpkg]
  match collectContents O repoDir fs2 packages [] with
  | none => trivial
  | some m =>
    exact fsAgree_write S fs1 fs2 _ _ h

theorem writePackagesFS_agree (O : Oracles) (archDir : FsPath) (packages : List Package)
    (S : List FsPath) (fs1 fs2 : FS) (h : FSAgree S fs1 fs2) :
    FSAgree S (writePackagesFS O archDir packages fs1)
      (writePackagesFS O archDir packages fs2) :=
  fsAgree_write S _ _ _ _ (fsAgree_write S fs1 fs2 _ _ h)

theorem archStep_agree (O : Oracles) (repoDir : FsPath) (st : PoolState)
    (relConf : ReleaseConfig) (comp : ComponentConfig) (a : String) (S : List FsPath)
    (fs1 fs2 : FS) (h : FSAgree S fs1 fs2)
    (hpkg : ∀ pkg ∈ packagesForArch
        (bucketPackages st (relConf.name ++ "/" ++ comp.name)) a,
      repoDir ++ pkg.Filename ∉ S) :
    OptRel (FSAgree S) (archStep O repoDir st relConf comp fs1 a)
      (archStep O repoDir st relConf comp fs2 a) := by
  unfold archStep
  exact writeContentsFS_agree O repoDir _ _ a S _ _
    (writePackagesFS_agree O _ _ S fs1 fs2 h) hpkg

theorem archFold_agree (O : Oracles) (repoDir : FsPath) (st : PoolState)
    (relConf : ReleaseConfig) (comp : ComponentConfig) (S : List FsPath)
    (hpkg : ∀ a, ∀ pkg ∈ packagesForArch
        (bucketPackages st (relConf.name ++ "/" ++ comp.name)) a,
      repoDir ++ pkg.Filename ∉ S) :
    ∀ (archList : List String) (fs1 fs2 : FS), FSAgree S fs1 fs2 →
      OptRel (FSAgree S)
        (archList.foldlM (archStep O repoDir st relConf comp) fs1)
        (archList.foldlM (archStep O repoDir st relConf comp) fs2)
  | [], fs1, fs2, h => by
    simp only [List.foldlM_nil]
    exact h
  | a :: archList, fs1, fs2, h => by
    rw [List.foldlM_cons, List.foldlM_cons]
    have hstep := archStep_agree O repoDir st relConf comp a S fs1 fs2 h (hpkg a)
    match hs1 : archStep O repoDir st relConf comp fs1 a,
        hs2 : archStep O repoDir st relConf comp fs2 a with
    | none, none => trivial
    | none, some g2 => rw [hs1, hs2] at hstep; exact absurd hstep (by simp [OptRel])
    | some g1, none => rw [hs1, hs2] at hstep; exact absurd hstep (by simp [OptRel])
    | some g1, some g2 =>
      rw [hs1, hs2] at hstep
      exact archFold_agree O repoDir st relConf comp S hpkg archList g1 g2 hstep

theorem compsFold_agree (O : Oracles) (repoDir : FsPath) (st : PoolState)
    (relConf : ReleaseConfig) (S : List FsPath)
    (hpkg : ∀ (comp : ComponentConfig) (a : String),
      ∀ pkg ∈ packagesForArch
        (bucketPackages st (relConf.name ++ "/" ++ comp.name)) a,
      repoDir ++ pkg.Filename ∉ S) :
    ∀ (comps : List ComponentConfig) (fs1 fs2 : FS), FSAgree S fs1 fs2 →
      OptRel (FSAgree S)
        (comps.foldlM (fun fsc comp =>
          ((lookupA st.archs (relConf.name ++ "/" ++ comp.name)).getD []).foldlM
            (archStep O repoDir st relConf comp) fsc) fs1)
        (comps.foldlM (fun fsc comp =>
          ((lookupA st.archs (relConf.name ++ "/" ++ comp.name)).getD []).foldlM
            (archStep O repoDir st relConf comp) fsc) fs2)
  | [], fs1, fs2, h => by
    simp only [List.foldlM_nil]
    exact h
  | comp :: comps, fs1, fs2, h => by
    rw [List.foldlM_cons, List.foldlM_cons]
    have hstep := archFold_agree O repoDir st relConf comp S (hpkg comp)
      ((lookupA st.archs (relConf.name ++ "/" ++ comp.name)).getD []) fs1 fs2 h
    match hs1 : ((lookupA st.archs (relConf.name ++ "/" ++ comp.name)).getD []).foldlM
          (archStep O repoDir st relConf comp) fs1,
        hs2 : ((lookupA st.archs (relConf.name ++ "/" ++ comp.name)).getD []).foldlM
          (archStep O repoDir st relConf comp) fs2 with
    | none, none => trivial
    | none, some g2 => rw [hs1, hs2] at hstep; exact absurd hstep (by simp [OptRel])
    | some g1, none => rw [hs1, hs2] at hstep; exact absurd hstep (by simp [OptRel])
    | some g1, some g2 =>
      rw [hs1, hs2] at hstep
      exact compsFold_agree O repoDir st relConf S hpkg comps g1 g2 hstep

theorem writeReleaseFS_agree (O : Oracles) (repoDir : FsPath) (st : PoolState)
    (relConf : ReleaseConfig) (now1 now2 : Nat) (S : List FsPath) (fs1 fs2 : FS)
    (h : FSAgree S fs1 fs2)
    (hdir : ∀ q ∈ S, underDir (repoDir ++ ["dists", relConf.name]) q = false) :
    ((writeReleaseFS O repoDir st relConf now1 fs1).1).SHA256 =
      ((writeReleaseFS O repoDir st relConf now2 fs2).1).SHA256 ∧
    FSAgree (S ++ [repoDir ++ ["dists", relConf.name, "InRelease"]])
      (writeReleaseFS O repoDir st relConf now1 fs1).2
      (writeReleaseFS O repoDir st relConf now2 fs2).2 := by
  have hsha : directoryHashes O (repoDir ++ ["dists", relConf.name]) fs1 =
      directoryHashes O (repoDir ++ ["dists", relConf.name]) fs2 :=
    fsAgree_directoryHashes O _ S fs1 fs2 h hdir
  constructor
  · exact hsha
  · show FSAgree _ (fsWrite fs1 (repoDir ++ ["dists", relConf.name] ++ ["InRelease"]) _)
      (fsWrite fs2 (repoDir ++ ["dists", relConf.name] ++ ["InRelease"]) _)
    have heq : repoDir ++ ["dists", relConf.name] ++ ["InRelease"] =
        repoDir ++ ["dists", relConf.name, "InRelease"] := by simp
    rw [heq]
    refine fsAgree_write_differing _ fs1 fs2 _ _ _ ?_ ?_
    · exact fsAgree_mono S _ fs1 fs2 (fun p hp => List.mem_append_left _ hp) h
    · exact List.mem_append_right _ (List.mem_singleton.mpr rfl)

end Aptify

namespace Aptify

theorem poolInv_bucket_filenames (O : Oracles) (repoDir : FsPath) (fs0 : FS)
    (done : List (String × String × String)) (st : PoolState)
    (hinv : PoolInv O repoDir fs0 done st) :
    ∀ rc l, lookupA st.buckets rc = some l → ∀ q pkg, (q, pkg) ∈ l →
      ∃ rest, pkg.Filename = "pool" :: rest := by
  intro rc l hrc q pkg hql
  have h1 := hinv.buckets_ok rc l hrc q pkg hql
  rw [hinv.pool_eq q] at h1
  match hf : firstCompFor done q with
  | none => rw [hf] at h1; simp at h1
  | some c =>
    rw [hf] at h1
    simp only [Option.some_bind] at h1
    exact poolPath_head c (metaPkg O q) pkg.Filename h1

theorem pool_filename_not_inrelease (repoDir : FsPath) (rest : List String)
    (names : List String) :
    repoDir ++ "pool" :: rest ∉
      names.map (fun n => repoDir ++ ["dists", n, "InRelease"]) := by
  intro hc
  rw [List.mem_map] at hc
  obtain ⟨n, _, hn⟩ := hc
  have h2 := List.append_cancel_left hn
  injection h2 with h3 _
  exact absurd h3 (by decide)

theorem bucket_paths_not_inrelease (O : Oracles) (repoDir : FsPath) (fs0 : FS)
    (done : List (String × String × String)) (st : PoolState)
    (hinv : PoolInv O repoDir fs0 done st) (names : List String) :
    ∀ (rc : String) (a : String), ∀ pkg ∈ packagesForArch (bucketPackages st rc) a,
      repoDir ++ pkg.Filename ∉
        names.map (fun n => repoDir ++ ["dists", n, "InRelease"]) := by
  intro rc a pkg hpkg
  have hmem : pkg ∈ bucketPackages st rc := by
    rw [packagesForArch, List.mem_insertionSort] at hpkg
    exact List.mem_of_mem_filter hpkg
  rw [bucketPackages] at hmem
  match hrc : lookupA st.buckets rc with
  | none =>
    rw [hrc] at hmem
    simp at hmem
  | some l =>
    rw [hrc] at hmem
    simp only [Option.getD_some, List.mem_map] at hmem
    obtain ⟨e, he, hpe⟩ := hmem
    obtain ⟨rest, hrest⟩ := poolInv_bucket_filenames O repoDir fs0 done st hinv rc l hrc
      e.1 e.2 (by rw [Prod.mk.eta]; exact he)
    rw [← hpe, hrest]
    exact pool_filename_not_inrelease repoDir rest names

theorem releasesFold_agree (O : Oracles) (repoDir : FsPath) (st : PoolState)
    (now1 now2 : Nat)
    (hbucket : ∀ (rc : String) (a : String) (names : List String),
      ∀ pkg ∈ packagesForArch (bucketPackages st rc) a,
      repoDir ++ pkg.Filename ∉
        names.map (fun n => repoDir ++ ["dists", n, "InRelease"])) :
    ∀ (rels : List ReleaseConfig) (done : List String)
      (acc1 acc2 out1 out2 : FS × List (String × Release)),
      rels.foldlM (releaseStep O repoDir st now1) acc1 = some out1 →
      rels.foldlM (releaseStep O repoDir st now2) acc2 = some out2 →
      FSAgree (done.map (fun n => repoDir ++ ["dists", n, "InRelease"])) acc1.1 acc2.1 →
      acc1.2.map (fun nr => (nr.1, nr.2.SHA256)) =
        acc2.2.map (fun nr => (nr.1, nr.2.SHA256)) →
      (∀ x ∈ rels, x.name ∉ done) →
      (rels.map (fun x => x.name)).Nodup →
      FSAgree ((done ++ rels.map (fun x => x.name)).map
          (fun n => repoDir ++ ["dists", n, "InRelease"])) out1.1 out2.1 ∧
        out1.2.map (fun nr => (nr.1, nr.2.SHA256)) =
          out2.2.map (fun nr => (nr.1, nr.2.SHA256))
  | [], done, acc1, acc2, out1, out2, h1, h2, hagree, hsha, _, _ => by
    simp only [List.foldlM_nil] at h1 h2
    cases h1
    cases h2
    simpa using ⟨hagree, hsha⟩
  | relConf :: rels, done, acc1, acc2, out1, out2, h1, h2, hagree, hsha, hnotin, hnd => by
    rw [List.foldlM_cons] at h1 h2
    match hs1 : releaseStep O repoDir st now1 acc1 relConf with
    | none => rw [hs1] at h1; simp at h1
    | some acc1' =>
    match hs2 : releaseStep O repoDir st now2 acc2 relConf with
    | none => rw [hs2] at h2; simp at h2
    | some acc2' =>
      rw [hs1] at h1
      rw [hs2] at h2
      -- unpack the two release steps
      unfold releaseStep at hs1 hs2
      have hrel := compsFold_agree O repoDir st relConf
        (done.map (fun n => repoDir ++ ["dists", n, "InRelease"]))
        (fun comp a pkg hpkg => hbucket _ a done pkg hpkg)
        relConf.components acc1.1 acc2.1 hagree
      rw [releaseIndexPhase_eq] at hs1 hs2
      match hi1 : relConf.components.foldlM (fun fsc comp =>
            ((lookupA st.archs (relConf.name ++ "/" ++ comp.name)).getD []).foldlM
              (archStep O repoDir st relConf comp) fsc) acc1.1 with
      | none => rw [hi1] at hs1; simp at hs1
      | some g1 =>
      match hi2 : relConf.components.foldlM (fun fsc comp =>
            ((lookupA st.archs (relConf.name ++ "/" ++ comp.name)).getD []).foldlM
              (archStep O repoDir st relConf comp) fsc) acc2.1 with
      | none => rw [hi2] at hs2; simp at hs2
      | some g2 =>
        rw [hi1] at hs1
        rw [hi2] at hs2
        dsimp only at hs1 hs2
        rw [hi1, hi2] at hrel
        have hdir : ∀ q ∈ done.map (fun n => repoDir ++ ["dists", n, "InRelease"]),
            underDir (repoDir ++ ["dists", relConf.name]) q = false := by
          intro q hq
          rw [List.mem_map] at hq
          obtain ⟨n, hn, hqn⟩ := hq
          cases hu : underDir (repoDir ++ ["dists", relConf.name]) q
          · rfl
          · exfalso
            have hq2 : q = repoDir ++ ["dists", n] ++ ["InRelease"] := by
              rw [← hqn]
              simp
            rw [hq2] at hu
            have := underDir_dists_name repoDir relConf.name n ["InRelease"] hu
            rw [← this] at hn
            exact hnotin relConf (List.mem_cons_self _ _) hn
        have hwr := writeReleaseFS_agree O repoDir st relConf now1 now2
          (done.map (fun n => repoDir ++ ["dists", n, "InRelease"])) g1 g2 hrel hdir
        cases hs1
        cases hs2
        have hagree2 : FSAgree ((done ++ [relConf.name]).map
            (fun n => repoDir ++ ["dists", n, "InRelease"]))
            ((writeReleaseFS O repoDir st relConf now1 g1).2, acc1.2 ++
              [(relConf.name, (writeReleaseFS O repoDir st relConf now1 g1).1)]).1
            ((writeReleaseFS O repoDir st relConf now2 g2).2, acc2.2 ++
              [(relConf.name, (writeReleaseFS O repoDir st relConf now2 g2).1)]).1 := by
          show FSAgree _ (writeReleaseFS O repoDir st relConf now1 g1).2
            (writeReleaseFS O repoDir st relConf now2 g2).2
          rw [List.map_append]
          exact hwr.2
        have hsha2 : (acc1.2 ++
            [(relConf.name, (writeReleaseFS O repoDir st relConf now1 g1).1)]).map
              (fun nr => (nr.1, nr.2.SHA256)) =
            (acc2.2 ++
              [(relConf.name, (writeReleaseFS O repoDir st relConf now2 g2).1)]).map
              (fun nr => (nr.1, nr.2.SHA256)) := by
          rw [List.map_append, List.map_append, hsha]
          congr 1
          simp [hwr.1]
        rw [List.map_cons, List.nodup_cons] at hnd
        have hout := releasesFold_agree O repoDir st now1 now2 hbucket rels
          (done ++ [relConf.name]) _ _ out1 out2 h1 h2 hagree2 hsha2
          (fun x hx => by
            rw [List.mem_append]
            rintro (hc | hc)
            · exact hnotin x (List.mem_cons_of_mem _ hx) hc
            · rw [List.mem_singleton] at hc
              exact hnd.1 (by rw [← hc]; exact List.mem_map_of_mem _ hx))
          hnd.2
        refine ⟨?_, hout.2⟩
        have hperm : (done ++ [relConf.name]) ++ rels.map (fun x => x.name) =
            done ++ (relConf :: rels).map (fun x => x.name) := by
          simp
        rw [← hperm]
        exact hout.1

end Aptify

namespace Aptify

theorem getLast_append_three (l : List String) (a b c : String) :
    (l ++ [a, b, c]).getLast? = some c := by
  have h : l ++ [a, b, c] = (l ++ [a, b]) ++ [c] := by simp
  rw [h, List.getLast?_concat]

/-- C9 (amended): running `buildRepository` twice from the same input
filesystem, configuration, oracles and signing key — only the clock differs
between the runs — yields equal bytes at every output path other than the
per-release `InRelease` files (in particular at every plain `Packages`
file), and each release's signed manifest carries an identical list of
(path, SHA-256 digest, size) hash entries in both runs, PROVIDED the
configured release names are distinct and slash-free.  Both restrictions
are forced by the program: a repeated name makes the later manifest hash
the earlier Date-bearing `InRelease` of the same directory, and a name with
a slash can nest one release's directory inside another's under Go's
joined string paths, with the same effect — see the counterexample above,
where distinct names `a/b` and `a` defeat the unrestricted claim.  The
slash-free hypothesis is what ties the component-list paths used here to
Go's joined strings: under it, `dists/<n1>` and `dists/<n2>` are disjoint
subtrees in both readings. -/
theorem c9_build_reproducible (O : Oracles) (repoDir : FsPath) (conf : Config)
    (now1 now2 : Nat) (fs0 : FS) (res1 res2 : BuildResult)
    (hns : ∀ x ∈ conf.releases, noSlash x.name)
    (hnd : (conf.releases.map (fun x => x.name)).Nodup)
    (h1 : buildRepository O repoDir conf now1 fs0 = some res1)
    (h2 : buildRepository O repoDir conf now2 fs0 = some res2) :
    (∀ p : FsPath, p.getLast? ≠ some "InRelease" →
        fsLookup res1.fs p = fsLookup res2.fs p) ∧
      res1.releases.map (fun nr => (nr.1, nr.2.SHA256)) =
        res2.releases.map (fun nr => (nr.1, nr.2.SHA256)) := by
  obtain ⟨st1, acc1, hp1, hf1, hfs1, _, _, _, _, hrel1⟩ :=
    buildRepository_elim O repoDir conf now1 fs0 res1 h1
  obtain ⟨st2, acc2, hp2, hf2, hfs2, _, _, _, _, hrel2⟩ :=
    buildRepository_elim O repoDir conf now2 fs0 res2 h2
  rw [hp1] at hp2
  injection hp2 with hst
  subst hst
  have hinv := poolPhase_inv O repoDir conf fs0 st1 hp1
  have hbucket := fun rc a names =>
    bucket_paths_not_inrelease O repoDir fs0 (refsOfConfig conf) st1 hinv names rc a
  have hmain := releasesFold_agree O repoDir st1 now1 now2 hbucket conf.releases []
    (st1.fs, []) (st1.fs, []) acc1 acc2 hf1 hf2 (fsAgree_refl _ _) rfl
    (fun x _ hc => absurd hc (List.not_mem_nil _)) hnd
  refine ⟨?_, by rw [hrel1, hrel2]; exact hmain.2⟩
  intro p hplast
  rw [hfs1, hfs2]
  have hag := fsAgree_write _ acc1.1 acc2.1 (repoDir ++ ["signing_key.asc"]) O.pubKey
    (by simpa only [List.nil_append] using hmain.1)
  refine fsAgree_lookup _ _ _ p hag ?_
  intro hc
  rw [List.mem_map] at hc
  obtain ⟨n, _, hn⟩ := hc
  rw [← hn, getLast_append_three] at hplast
  exact hplast rfl

theorem c9_build_reproducible_witness :
    ∃ res1 res2, buildRepository sampleOracles ["repo"] c5conf 1 [] = some res1 ∧
      buildRepository sampleOracles ["repo"] c5conf 2 [] = some res2 ∧
      ((∀ p : FsPath, p.getLast? ≠ some "InRelease" →
          fsLookup res1.fs p = fsLookup res2.fs p) ∧
        res1.releases.map (fun nr => (nr.1, nr.2.SHA256)) =
          res2.releases.map (fun nr => (nr.1, nr.2.SHA256))) := by
  match hr1 : buildRepository sampleOracles ["repo"] c5conf 1 [] with
  | none => exact absurd hr1 (by decide)
  | some res1 =>
  match hr2 : buildRepository sampleOracles ["repo"] c5conf 2 [] with
  | none => exact absurd hr2 (by decide)
  | some res2 =>
    exact ⟨res1, res2, rfl, rfl,
      c9_build_reproducible sampleOracles ["repo"] c5conf 1 2 [] res1 res2
        (by decide) (by decide) hr1 hr2⟩

end Aptify

namespace Aptify

/-- Go joins paths into slash-separated strings, and `filepath.WalkDir dir`
visits exactly the files whose joined path extends `dir ++ "/"`: `p` is a
regular file strictly below `dir` in this string sense. -/
def underDirS (dir p : String) : Bool :=
  decide (p.data.take (dir.data.length + 1) = dir.data ++ ['/'] ∧
    dir.data.length + 1 < p.data.length)

/-- `sha256sum.Directory` over Go's joined string paths.  The
component-list test `underDir` coincides with this one only while every
path component is slash-free; a release name holding a slash nests its
tree inside another release's directory, which only the string reading
captures.  The relative name is the joined remainder, as `filepath.Rel`
returns it. -/
def directoryHashesR (O : Oracles) (dir : FsPath) (fs : FS) : List FileHash :=
  fs.filterMap (fun e =>
    if underDirS (renderPath dir) (renderPath e.1) then
      some { Filename := [String.mk ((renderPath e.1).data.drop ((renderPath dir).data.length + 1))],
             Hash := O.hash e.2, Size := e.2.length }
    else none)

/-- `writeReleaseFile` with the directory walk at Go's string-path
semantics; otherwise identical to `writeReleaseFS`. -/
def writeReleaseFSR (O : Oracles) (repoDir : FsPath) (st : PoolState)
    (relConf : ReleaseConfig) (now : Nat) (fs : FS) : Release × FS :=
  let releaseDir := repoDir ++ ["dists", relConf.name]
  let rel : Release :=
    { Origin := relConf.origin
      Label := relConf.label
      Suite := relConf.suite
      Version := relConf.version
      Codename := relConf.name
      Changelogs := "no"
      Date := now
      Architectures := (lookupA st.archs relConf.name).getD []
      Components := relConf.components.map (fun c => c.name)
      Description := relConf.description
      SHA256 := directoryHashesR O releaseDir fs }
  (rel, fsWrite fs (releaseDir ++ ["InRelease"]) (O.encodeRelease rel))

/-- `releaseStep` with the directory walk at Go's string-path semantics. -/
def releaseStepR (O : Oracles) (repoDir : FsPath) (st : PoolState) (now : Nat)
    (acc : FS × List (String × Release)) (relConf : ReleaseConfig) :
    Option (FS × List (String × Release)) :=
  match releaseIndexPhase O repoDir st relConf acc.1 with
  | none => none
  | some fs1 =>
    let rf := writeReleaseFSR O repoDir st relConf now fs1
    some (rf.2, acc.2 ++ [(relConf.name, rf.1)])

/-- `buildRepository` with the directory walk at Go's string-path
semantics. -/
def buildRepositoryR (O : Oracles) (repoDir : FsPath) (conf : Config) (now : Nat) (fs0 : FS) :
    Option BuildResult :=
  match poolPhase O repoDir conf fs0 with
  | none => none
  | some st =>
    match conf.releases.foldlM (releaseStepR O repoDir st now) (st.fs, []) with
    | none => none
    | some acc =>
      some { fs := fsWrite acc.1 (repoDir ++ ["signing_key.asc"]) O.pubKey
             buckets := st.buckets
             archs := st.archs
             poolMap := st.poolMap
             copies := st.copies
             releases := acc.2 }

/-- Oracles whose clearsigned release encoding depends on the `Date`
field, as the real deb822 encoder serialises the manifest's `Date:`
line. -/
def c9Oracles : Oracles :=
  { sampleOracles with
    encodeRelease := fun rel => "SIGNED(" ++ rel.Codename ++ "@" ++ Nat.repr rel.Date ++ ")" }

/-- Two releases with distinct names, the second of whose directories
contains the first once paths are joined. -/
def c9conf : Config :=
  { releases := [{ name := "a/b", version := "1", origin := "o", label := "l", suite := "s",
                   description := "d", components := [] },
                 { name := "a", version := "1", origin := "o", label := "l", suite := "s",
                   description := "d", components := [] }] }

/-- C9 (refutation of the unrestricted claim): with releases named `a/b`
and then `a` — distinct names, so distinctness alone does not save the
claim — release `a`'s directory walk reaches `dists/a/b/InRelease`, a
Date-bearing file written by the earlier release, so two otherwise
identical runs of the build at different times both succeed yet produce
different manifest hash-entry lists. -/
theorem c9_nested_release_counterexample :
    (c9conf.releases.map (fun x => x.name)).Nodup ∧
    (buildRepositoryR c9Oracles ["repo"] c9conf 1 []).isSome ∧
    (buildRepositoryR c9Oracles ["repo"] c9conf 2 []).isSome ∧
    (buildRepositoryR c9Oracles ["repo"] c9conf 1 []).map
        (fun res => res.releases.map (fun nr => (nr.1, nr.2.SHA256))) ≠
      (buildRepositoryR c9Oracles ["repo"] c9conf 2 []).map
        (fun res => res.releases.map (fun nr => (nr.1, nr.2.SHA256))) := by
  refine ⟨by decide, by decide, by decide, by decide⟩

end Aptify
